import Mathlib

/-!
Shallow embedding of the agent implementation in `src/backend/NodeClass.py`
(fixed-size swarm, frontier-based maze exploration), together with proofs
about its tick state machine, map-merge protocol, claim protocol and the
two BFS path-engine operations.

Modelling conventions:
* A Python `(x, y)` coordinate tuple is `Cell := Int × Int`.
* A Python `dict` is an insertion-ordered association list (`Dict` below);
  `d[k] = v` on a missing key appends at the end, exactly like a Python dict.
* A Python `set` used only for membership tests (`visited` in the BFS loops)
  is a `List` queried with `∈`; the adjacency values of `local_map` are kept
  as `List Cell` (the code only ever stores `set()` there).
* `current_position` is modelled as a plain `Cell`: every agent gets
  `set_initial_position` before use, and no modelled operation clears it.
* Machine integers are `Int` (Python ints are unbounded, so no wrap-around).
* The two `while queue:` BFS loops of `_get_bfs_distance` and
  `_find_next_step_bfs` are translated with an explicit fuel argument.
  Fuel `local_map.length + 4` is an upper bound on the number of loop
  iterations actually possible: each iteration pops one queue entry, every
  entry is enqueued together with a fresh addition to `visited`, and
  `visited` only ever holds distinct cells drawn from the start cell, the
  target cell and the keys of `local_map`.  The theorem
  `bfsDistLoop_fuel_stable` below proves the result is independent of the
  fuel from this bound on, so the wrapper functions compute exactly what
  the unbounded Python loops compute.
* UDP sockets are out of scope (per the spec); a broadcast is modelled by
  the payload value it would send (`Option Payload`, `none` = nothing sent),
  and an inbound message by the outcome of `json.loads` (`ParsedMsg`):
  `failure` for a string on which `json.loads` raises `JSONDecodeError`,
  `nonDict` for a string holding valid JSON that is not an object (such as
  `42`, `null` or `[1,2,3]`, on which `payload.get("type")` then raises
  `AttributeError`), and `dict p` for a JSON object.  Absent keys of an
  object are `none` fields; `payload.get(k, default)` is `Option.getD`.
  An exception escaping `process_message` is returned as the
  `Option PyError` component of its result, the state component being the
  agent state at the moment of the raise (nothing is mutated before it).
-/

namespace NodeClass

/-- A grid cell: an integer coordinate pair `(x, y)`. -/
abbrev Cell : Type := Int × Int

/-- Agent identifiers are Python ints. -/
abbrev AgentId : Type := Int

/-- An insertion-ordered dictionary, as a Python `dict`: an association list
whose keys are unique in any state actually constructed by the code. -/
abbrev Dict (α β : Type) : Type := List (α × β)

/-- Lookup of the value stored at key `k` (first matching entry). -/
def dictLookup {α β : Type} [DecidableEq α] (d : Dict α β) (k : α) : Option β :=
  match d with
  | [] => none
  | (k', v) :: rest => if k' = k then some v else dictLookup rest k

/-- Python `k in d` for a dict `d`. -/
def dictContains {α β : Type} [DecidableEq α] (d : Dict α β) (k : α) : Bool :=
  (dictLookup d k).isSome

/-- Python `list(d.keys())` (insertion order). -/
def dictKeys {α β : Type} (d : Dict α β) : List α :=
  d.map Prod.fst

/-- Python `d[k] = v`: overwrite in place if the key exists (a Python dict
keeps the key's original insertion position), otherwise append at the end. -/
def dictSet {α β : Type} [DecidableEq α] (d : Dict α β) (k : α) (v : β) : Dict α β :=
  match d with
  | [] => [(k, v)]
  | (k', v') :: rest => if k' = k then (k', v) :: rest else (k', v') :: dictSet rest k v

/-- The mutable per-agent state of `Node` (the fields the core algorithms
read and write; port, name, socket and callbacks are out of scope). -/
structure AgentState where
  agent_id : AgentId
  local_map : Dict Cell (List Cell)
  frontiers : List Cell
  target_frontier : Option Cell
  claimed_frontiers : Dict Cell AgentId
  current_position : Cell
  stuck_counter : Nat
deriving DecidableEq, Repr

/-- A decoded message payload: the dictionary produced by `json.loads`.
Fields the sender did not include are `none` (`payload.get` then returns the
default). -/
structure Payload where
  type : Option String := none
  sender_id : Option AgentId := none
  sender_name : Option String := none
  nodes : Option (List Cell) := none
  frontiers : Option (List Cell) := none
  target_frontier : Option Cell := none
deriving DecidableEq, Repr

/-- The exploration directions used by every loop in the file, in source
order: `[(-1, 0), (1, 0), (0, -1), (0, 1)]`. -/
def directions : List (Int × Int) := [(-1, 0), (1, 0), (0, -1), (0, 1)]

/-- Source line `if self.current_position not in self.local_map: self.local_map[pos] = set()`
(the guarded insertion appearing at lines 219, 259 and 393 of the source). -/
def ensureCurrent (s : AgentState) : AgentState :=
  if dictContains s.local_map s.current_position then s
  else { s with local_map := s.local_map ++ [(s.current_position, [])] }

/-- One step of the inner `for dx, dy in directions:` loop of
`_get_bfs_distance`: the accumulator is the pair (queue, visited); `d` is the
distance popped with the current cell `c`. -/
def distPushStep (lm : Dict Cell (List Cell)) (pos2 : Cell) (c : Cell) (d : Nat)
    (acc : List (Cell × Nat) × List Cell) (dir : Int × Int) :
    List (Cell × Nat) × List Cell :=
  let neighbor : Cell := (c.1 + dir.1, c.2 + dir.2)
  if neighbor ∈ acc.2 then acc
  else if dictContains lm neighbor = true ∨ neighbor = pos2 then
    (acc.1 ++ [(neighbor, d + 1)], neighbor :: acc.2)
  else acc

/-- The `while queue:` loop of `_get_bfs_distance`.  Returns `some d` when
`pos2` is popped at distance `d`, `none` when the queue empties (the wrapper
turns that into the sentinel `999999`).  `fuel` bounds the iterations; see
the module comment and `bfsDistLoop_fuel_stable`. -/
def bfsDistLoop (lm : Dict Cell (List Cell)) (pos2 : Cell) :
    Nat → List (Cell × Nat) → List Cell → Option Nat
  | 0, _, _ => none
  | _ + 1, [], _ => none
  | fuel + 1, (c, d) :: rest, visited =>
    if c = pos2 then some d
    else
      let next := directions.foldl (distPushStep lm pos2 c d) (rest, visited)
      bfsDistLoop lm pos2 fuel next.1 next.2

/-- Source `_get_bfs_distance`: true path distance from `pos1` to `pos2` by BFS over
the cells of `local_map` (the target itself is a legal final hop even when
unmapped); `999999` when unreachable. -/
def get_bfs_distance (s : AgentState) (pos1 pos2 : Cell) : Nat :=
  if pos1 = pos2 then 0
  else
    (bfsDistLoop s.local_map pos2 (s.local_map.length + 4) [(pos1, 0)] [pos1]).getD 999999

/-- One step of the inner direction loop of `_find_next_step_bfs`; the queue
carries the whole path walked to reach each cell. -/
def pathPushStep (lm : Dict Cell (List Cell)) (target : Cell) (c : Cell) (path : List Cell)
    (acc : List (Cell × List Cell) × List Cell) (dir : Int × Int) :
    List (Cell × List Cell) × List Cell :=
  let neighbor : Cell := (c.1 + dir.1, c.2 + dir.2)
  if neighbor ∈ acc.2 then acc
  else if dictContains lm neighbor = true ∨ neighbor = target then
    (acc.1 ++ [(neighbor, path ++ [neighbor])], neighbor :: acc.2)
  else acc

/-- The `while queue:` loop of `_find_next_step_bfs`.  On popping the target
it returns `path[1]` when the path has more than one entry and `None`
otherwise; on exhaustion it returns `None` — both are `none` here, exactly as
both are Python `None`. -/
def bfsPathLoop (lm : Dict Cell (List Cell)) (target : Cell) :
    Nat → List (Cell × List Cell) → List Cell → Option Cell
  | 0, _, _ => none
  | _ + 1, [], _ => none
  | fuel + 1, (c, path) :: rest, visited =>
    if c = target then path[1]?
    else
      let next := directions.foldl (pathPushStep lm target c path) (rest, visited)
      bfsPathLoop lm target fuel next.1 next.2

/-- Source `_find_next_step_bfs`: the first hop of a shortest path from the current
position to `target`, or `none` when no path exists through known cells. -/
def find_next_step_bfs (s : AgentState) (target : Cell) : Option Cell :=
  if target = s.current_position then none
  else
    bfsPathLoop s.local_map target (s.local_map.length + 4)
      [(s.current_position, [s.current_position])] [s.current_position]

/-- Source `_is_wall`: cell value `1` is a wall. -/
def is_wall (cell_value : Int) : Bool := cell_value == 1

/-- A grid view: `local_grid_view[nx][ny]` with `0` = open, `1` = wall. -/
abbrev Grid : Type := List (List Int)

/-- Grid access `local_grid_view[nx][ny]` for indices already checked to satisfy
`0 ≤ nx < len(grid)` and `0 ≤ ny < len(grid[0])` (the defaults only make the
function total; on a rectangular grid they are never reached). -/
def gridAt (g : Grid) (nx ny : Int) : Int :=
  (g.getD nx.toNat []).getD ny.toNat 0

/-- One step of the neighbor loop of `_scan_neighbors`: the accumulator is
the pair (frontiers list, new_frontiers list); `lm` is the (loop-invariant)
local map and `(cx, cy)` the current position. -/
def scanStep (lm : Dict Cell (List Cell)) (g : Grid) (cx cy rows cols : Int)
    (acc : List Cell × List Cell) (dir : Int × Int) : List Cell × List Cell :=
  let nx : Int := cx + dir.1
  let ny : Int := cy + dir.2
  if ¬ (0 ≤ nx ∧ nx < rows ∧ 0 ≤ ny ∧ ny < cols) then acc
  else if is_wall (gridAt g nx ny) then acc
  else if dictContains lm (nx, ny) then acc
  else if (nx, ny) ∈ acc.1 then acc
  else (acc.1 ++ [(nx, ny)], acc.2 ++ [(nx, ny)])

/-- Source `_scan_neighbors`: register the current position, then walk the four
neighbors, appending each in-bounds, open, unmapped, not-yet-listed cell to
both the frontier list and the returned `new_frontiers` list. -/
def scan_neighbors (s : AgentState) (g : Grid) : AgentState × List Cell :=
  let rows : Int := g.length
  let cols : Int := (g.getD 0 []).length
  let s1 := ensureCurrent s
  let r := directions.foldl
    (scanStep s1.local_map g s.current_position.1 s.current_position.2 rows cols)
    (s1.frontiers, [])
  ({ s1 with frontiers := r.1 }, r.2)

/-- Source `_broadcast_map_update`: the MERGE payload sent to every peer, or `none`
when both lists are empty (the early `return`). -/
def broadcast_map_update (s : AgentState) (new_nodes new_frontiers : List Cell) :
    Option Payload :=
  if new_nodes = [] ∧ new_frontiers = [] then none
  else
    some { type := some ("MERGE"), sender_id := some s.agent_id,
           nodes := some new_nodes, frontiers := some new_frontiers }

/-- Source `_broadcast_frontier_claim`: the CLAIM payload sent to every peer. -/
def broadcast_frontier_claim (s : AgentState) (frontier : Cell) : Payload :=
  { type := some ("CLAIM"), sender_id := some s.agent_id,
    target_frontier := some frontier }

/-- One step of the node loop of `_process_merge_packet`:
`if node_tuple not in self.local_map: self.local_map[node_tuple] = set()`. -/
def mergeNodeStep (st : AgentState) (node : Cell) : AgentState :=
  if dictContains st.local_map node then st
  else { st with local_map := st.local_map ++ [(node, [])] }

/-- One step of the frontier loop of `_process_merge_packet`:
`if frontier_tuple not in self.frontiers: self.frontiers.append(...)`. -/
def mergeFrontierStep (st : AgentState) (f : Cell) : AgentState :=
  if f ∈ st.frontiers then st
  else { st with frontiers := st.frontiers ++ [f] }

/-- Source `_process_merge_packet`: add each listed node to `local_map` when absent,
then append each listed frontier to `frontiers` when absent. -/
def process_merge_packet (s : AgentState) (p : Payload) : AgentState :=
  let s1 := (p.nodes.getD []).foldl mergeNodeStep s
  (p.frontiers.getD []).foldl mergeFrontierStep s1

/-- Source `_process_claim_packet`: record the sender as owner when the frontier is
unclaimed, overwrite when the sender's id is strictly lower than the recorded
owner's, ignore otherwise.  A payload without `target_frontier` (Python
`None`, falsy) does nothing. -/
def process_claim_packet (s : AgentState) (p : Payload) : AgentState :=
  let sender_id := p.sender_id.getD 999
  match p.target_frontier with
  | none => s
  | some frontier =>
    match dictLookup s.claimed_frontiers frontier with
    | none =>
      { s with claimed_frontiers := dictSet s.claimed_frontiers frontier sender_id }
    | some owner =>
      if sender_id < owner then
        { s with claimed_frontiers := dictSet s.claimed_frontiers frontier sender_id }
      else s

/-- Outcome of `json.loads` on the received string. -/
inductive ParsedMsg where
  /-- The string is not valid JSON: `json.loads` raises `JSONDecodeError`. -/
  | failure : ParsedMsg
  /-- The string is valid JSON but not an object (`42`, `null`, `[1,2,3]`,
  a bare string): `payload.get` does not exist on the decoded value. -/
  | nonDict : ParsedMsg
  /-- The string decodes to a JSON object with the given fields. -/
  | dict (payload : Payload) : ParsedMsg
deriving DecidableEq, Repr

/-- A Python exception escaping `process_message`. -/
inductive PyError where
  /-- `AttributeError`: `payload.get("type")` on a non-dict decoded value. -/
  | attributeError : PyError
deriving DecidableEq, Repr

/-- Source `process_message`: dispatch on the decoded type.  The `try` block
catches only `json.JSONDecodeError` (logged and dropped); when `json.loads`
returns a non-object, `payload.get("type")` raises `AttributeError`, which
propagates to the caller — returned here as the second component, the state
being untouched since nothing is mutated before that line.  An object of
unknown or missing type is only logged. -/
def process_message (s : AgentState) (msg : ParsedMsg) : AgentState × Option PyError :=
  match msg with
  | ParsedMsg.failure => (s, none)
  | ParsedMsg.nonDict => (s, some PyError.attributeError)
  | ParsedMsg.dict payload =>
    (if payload.type = some ("MERGE") then process_merge_packet s payload
     else if payload.type = some ("CLAIM") then process_claim_packet s payload
     else s, none)

/-- Source `_select_best_frontier`.  Here `choice` models `random.choice` (an arbitrary
function picking an element of a non-empty list); `sorted(..., key=...)` is a
stable sort by BFS distance, here `List.mergeSort` with the corresponding
`≤`-by-key relation. -/
def select_best_frontier (choice : List Cell → Cell) (s : AgentState) : Option Cell :=
  if s.frontiers = [] then none
  else
    let unclaimed := s.frontiers.filter
      (fun f => ¬ dictContains s.claimed_frontiers f = true)
    if unclaimed ≠ [] then
      let sorted_unclaimed := unclaimed.mergeSort
        (fun a b => get_bfs_distance s s.current_position a ≤
          get_bfs_distance s s.current_position b)
      some (choice (sorted_unclaimed.take (min 3 sorted_unclaimed.length)))
    else
      some (choice s.frontiers)

/-- Source `_move_toward_target`: returns the mutated state and the position the
tick should move to.  On a BFS failure the target is dropped and the stuck
counter incremented; past the threshold (`stuck_counter > 5`) a random
frontier is force-assigned and the counter cleared; on success the counter
is cleared and the step returned. -/
def move_toward_target (choice : List Cell → Cell) (s : AgentState) :
    AgentState × Cell :=
  match s.target_frontier with
  | none => (s, s.current_position)
  | some target =>
    let s1 := ensureCurrent s
    match find_next_step_bfs s1 target with
    | none =>
      let s2 := { s1 with target_frontier := none,
                          stuck_counter := s1.stuck_counter + 1 }
      if s2.stuck_counter > 5 ∧ s2.frontiers ≠ [] then
        ({ s2 with target_frontier := some (choice s2.frontiers),
                   stuck_counter := 0 }, s2.current_position)
      else (s2, s2.current_position)
    | some next_step => ({ s1 with stuck_counter := 0 }, next_step)

/-- CLEANUP phase of `tick` (lines 392-401): register the current position,
prune frontiers that are now map keys, clear a reached target. -/
def tickCleanup (s : AgentState) : AgentState :=
  let s1 := ensureCurrent s
  let s2 := { s1 with
    frontiers := s1.frontiers.filter (fun f => ¬ dictContains s1.local_map f = true) }
  if s2.target_frontier = some s2.current_position then
    { s2 with target_frontier := none }
  else s2

/-- ANTI-LIVELOCK phase of `tick` (lines 403-409): yield the target when a
lower-id agent owns it. -/
def tickYield (s : AgentState) : AgentState :=
  match s.target_frontier with
  | none => s
  | some t =>
    match dictLookup s.claimed_frontiers t with
    | none => s
    | some owner_id =>
      if owner_id < s.agent_id then { s with target_frontier := none } else s

/-- DECIDE phase of `tick` (lines 421-429): when there is no target, select a
frontier; on success claim it locally first, set it as target, and emit the
CLAIM broadcast payload. -/
def tickDecide (choice : List Cell → Cell) (s : AgentState) :
    AgentState × Option Payload :=
  match s.target_frontier with
  | some _ => (s, none)
  | none =>
    match select_best_frontier choice s with
    | none => (s, none)
    | some selected =>
      let s1 := { s with
        claimed_frontiers := dictSet s.claimed_frontiers selected s.agent_id,
        target_frontier := some selected }
      (s1, some (broadcast_frontier_claim s1 selected))

/-- MOVE phase of `tick` (lines 431-441): step toward the target when one
exists; update the position when it changed, otherwise clear the target when
the returned position is the target itself. -/
def tickMove (choice : List Cell → Cell) (s : AgentState) : AgentState :=
  match s.target_frontier with
  | none => s
  | some _ =>
    let r := move_toward_target choice s
    if r.2 ≠ r.1.current_position then { r.1 with current_position := r.2 }
    else if r.1.target_frontier = some r.2 then { r.1 with target_frontier := none }
    else r.1

/-- Everything one `tick` produces: the new state and the two broadcast
payloads (each `none` when that broadcast was skipped). -/
structure TickResult where
  state : AgentState
  map_update_msg : Option Payload
  claim_msg : Option Payload
deriving DecidableEq, Repr

/-- Source `tick`: CLEANUP, YIELD-CHECK, SCAN, BROADCAST (with
`new_nodes = list(self.local_map.keys())`, all discovered nodes), DECIDE,
MOVE, in source order. -/
def tick (choice : List Cell → Cell) (s : AgentState) (g : Grid) : TickResult :=
  let s1 := tickCleanup s
  let s2 := tickYield s1
  let scanned := scan_neighbors s2 g
  let s3 := scanned.1
  let new_frontiers := scanned.2
  let new_nodes := dictKeys s3.local_map
  let merge_msg := broadcast_map_update s3 new_nodes new_frontiers
  let decided := tickDecide choice s3
  let s4 := decided.1
  let s5 := tickMove choice s4
  ⟨s5, merge_msg, decided.2⟩

/-- Termination potential of a BFS loop state: the number of cells the
search could still add to `visited` (every cell ever pushed is either the
target or a key of the local map, and is added to `visited` exactly once).
One loop iteration decreases `queue.length + bfsPotential` by exactly one,
which is why fuel `local_map.length + 4` is enough for the whole search;
see `bfsDistLoop_fuel_stable` and `bfsPathLoop_fuel_stable`. -/
def bfsPotential (lm : Dict Cell (List Cell)) (t : Cell) (v : List Cell) : Nat :=
  ((t :: dictKeys lm).dedup.filter (fun x => ¬ x ∈ v)).length

/-- A deterministic stand-in for `random.choice` used to instantiate the
theorems at concrete inputs: it returns the head of the list. -/
def headChoice : List Cell → Cell :=
  fun l => l.headD ((0 : Int), (0 : Int))

/-- Agent that has already discovered `(0,0)` and `(0,1)`, sitting at `(0,0)`
with no frontiers. -/
def exploredTwoState : AgentState :=
  { agent_id := 1,
    local_map := [((((0 : Int), (0 : Int))), []), ((((0 : Int), (1 : Int))), [])],
    frontiers := [], target_frontier := none, claimed_frontiers := [],
    current_position := ((0 : Int), (0 : Int)), stuck_counter := 0 }

/-- A 2×2 all-open grid view. -/
def openGrid2 : Grid := [[0, 0], [0, 0]]

/-- Agent whose local map already holds `(5,5)` and whose frontier list is
empty. -/
def mappedFiveState : AgentState :=
  { agent_id := 1, local_map := [((((5 : Int), (5 : Int))), [])],
    frontiers := [], target_frontier := none, claimed_frontiers := [],
    current_position := ((5 : Int), (5 : Int)), stuck_counter := 0 }

/-- A MERGE payload listing the already-mapped cell `(5,5)` as a frontier. -/
def fiveFrontierPayload : Payload :=
  { type := some ("MERGE"), sender_id := some 2,
    nodes := some [], frontiers := some [((5 : Int), (5 : Int))] }

/-- Agent at `(0,0)` knowing only its own cell, already stuck 4 times, still
targeting the unreachable `(5,5)`, with one known frontier `(9,9)`. -/
def stuckFourState : AgentState :=
  { agent_id := 1, local_map := [((((0 : Int), (0 : Int))), [])],
    frontiers := [((9 : Int), (9 : Int))],
    target_frontier := some ((5 : Int), (5 : Int)), claimed_frontiers := [],
    current_position := ((0 : Int), (0 : Int)), stuck_counter := 4 }

/-- The same stuck agent one failure later: the stuck counter already shows
5 consecutive failures. -/
def stuckFiveState : AgentState :=
  { stuckFourState with stuck_counter := 5 }

/-- A payload of a type that is neither MERGE nor CLAIM. -/
def pingPayload : Payload :=
  { type := some ("PING"), sender_id := some 7 }

/-- Fresh agent used to instantiate universally quantified theorems: empty
map, no frontiers, no claims, sitting at `(0,0)`. -/
def freshState : AgentState :=
  { agent_id := 2, local_map := [], frontiers := [], target_frontier := none,
    claimed_frontiers := [], current_position := ((0 : Int), (0 : Int)),
    stuck_counter := 0 }

/-- A straight corridor of `n + 1` mapped cells `(0,0) … (0,n)`, the local
map of an agent that walked a long east-bound hallway. -/
def lineMap (n : Nat) : Dict Cell (List Cell) :=
  (List.range (n + 1)).map (fun k : Nat => (((0 : Int), (k : Int)), ([] : List Cell)))

/-- The `visited` set the distance BFS has built after walking the corridor
up to `(0,j)` (most recent first, as the loop conses). -/
def lineVisited : Nat → List Cell
  | 0 => [((0 : Int), (0 : Int))]
  | j + 1 => (((0 : Int), ((j : Nat) + 1 : Int))) :: lineVisited j

/-- Agent standing at the west end of the corridor `lineMap n`. -/
def lineState (n : Nat) : AgentState :=
  { agent_id := 1, local_map := lineMap n, frontiers := [],
    target_frontier := none, claimed_frontiers := [],
    current_position := ((0 : Int), (0 : Int)), stuck_counter := 0 }

theorem dictContains_iff_mem_keys {α β : Type} [DecidableEq α] (d : Dict α β) (k : α) :
    dictContains d k = true ↔ k ∈ dictKeys d := by
  induction d with
  | nil => simp [dictContains, dictLookup, dictKeys]
  | cons hd tl ih =>
    obtain ⟨k', v⟩ := hd
    by_cases h : k' = k
    · subst h
      simp [dictContains, dictLookup, dictKeys]
    · simpa [dictContains, dictLookup, dictKeys, h, Ne.symm h] using ih

theorem dictContains_eq_false_iff {α β : Type} [DecidableEq α] (d : Dict α β) (k : α) :
    dictContains d k = false ↔ k ∉ dictKeys d := by
  rw [← dictContains_iff_mem_keys]
  cases h : dictContains d k <;> simp [h]

theorem dictKeys_append {α β : Type} (d1 d2 : Dict α β) :
    dictKeys (d1 ++ d2) = dictKeys d1 ++ dictKeys d2 := by
  simp [dictKeys]

theorem dictLookup_dictSet_self {α β : Type} [DecidableEq α] (d : Dict α β) (k : α) (v : β) :
    dictLookup (dictSet d k v) k = some v := by
  induction d with
  | nil => simp [dictSet, dictLookup]
  | cons hd tl ih =>
    obtain ⟨k', v'⟩ := hd
    by_cases h : k' = k <;> simp [dictSet, dictLookup, h, ih]

theorem dictLookup_append_of_none {α β : Type} [DecidableEq α] (d1 d2 : Dict α β) (k : α)
    (h : dictLookup d1 k = none) : dictLookup (d1 ++ d2) k = dictLookup d2 k := by
  induction d1 with
  | nil => simp
  | cons hd tl ih =>
    obtain ⟨k', v'⟩ := hd
    by_cases hk : k' = k
    · simp [dictLookup, hk] at h
    · simp only [dictLookup, hk, if_false, List.cons_append] at h ⊢
      exact ih h

theorem dictLookup_append_of_some {α β : Type} [DecidableEq α] (d1 d2 : Dict α β) (k : α)
    (v : β) (h : dictLookup d1 k = some v) : dictLookup (d1 ++ d2) k = some v := by
  induction d1 with
  | nil => simp [dictLookup] at h
  | cons hd tl ih =>
    obtain ⟨k', v'⟩ := hd
    by_cases hk : k' = k
    · simp only [dictLookup, hk, if_true] at h ⊢
      simpa using h
    · simp only [dictLookup, hk, if_false, List.cons_append] at h ⊢
      exact ih h

theorem ensureCurrent_cases (s : AgentState) :
    ensureCurrent s = s ∨
    (ensureCurrent s =
      { s with local_map := s.local_map ++ [(s.current_position, [])] } ∧
      dictContains s.local_map s.current_position = false) := by
  unfold ensureCurrent
  split
  · exact Or.inl rfl
  · rename_i h
    exact Or.inr ⟨rfl, by simpa using h⟩

theorem ensureCurrent_frontiers (s : AgentState) :
    (ensureCurrent s).frontiers = s.frontiers := by
  unfold ensureCurrent; split <;> rfl

theorem ensureCurrent_current_position (s : AgentState) :
    (ensureCurrent s).current_position = s.current_position := by
  unfold ensureCurrent; split <;> rfl

theorem ensureCurrent_target_frontier (s : AgentState) :
    (ensureCurrent s).target_frontier = s.target_frontier := by
  unfold ensureCurrent; split <;> rfl

theorem ensureCurrent_claimed_frontiers (s : AgentState) :
    (ensureCurrent s).claimed_frontiers = s.claimed_frontiers := by
  unfold ensureCurrent; split <;> rfl

theorem ensureCurrent_stuck_counter (s : AgentState) :
    (ensureCurrent s).stuck_counter = s.stuck_counter := by
  unfold ensureCurrent; split <;> rfl

theorem ensureCurrent_agent_id (s : AgentState) :
    (ensureCurrent s).agent_id = s.agent_id := by
  unfold ensureCurrent; split <;> rfl

theorem ensureCurrent_contains_current (s : AgentState) :
    dictContains (ensureCurrent s).local_map s.current_position = true := by
  unfold ensureCurrent
  split
  · assumption
  · rw [dictContains_iff_mem_keys]
    simp [dictKeys]

theorem ensureCurrent_eq_of_contains (s : AgentState)
    (h : dictContains s.local_map s.current_position = true) : ensureCurrent s = s := by
  unfold ensureCurrent
  simp [h]

theorem mem_keys_ensureCurrent (s : AgentState) (c : Cell)
    (h : c ∈ dictKeys s.local_map) : c ∈ dictKeys (ensureCurrent s).local_map := by
  rcases ensureCurrent_cases s with he | ⟨he, _⟩ <;> rw [he]
  · exact h
  · simp only [dictKeys_append]
    exact List.mem_append_left _ h

theorem contains_ensureCurrent (s : AgentState) (c : Cell)
    (h : dictContains s.local_map c = true) :
    dictContains (ensureCurrent s).local_map c = true := by
  rw [dictContains_iff_mem_keys] at h ⊢
  exact mem_keys_ensureCurrent s c h

theorem scanStep_cases (lm : Dict Cell (List Cell)) (g : Grid) (cx cy rows cols : Int)
    (acc : List Cell × List Cell) (dir : Int × Int) :
    scanStep lm g cx cy rows cols acc dir = acc ∨
    ∃ c : Cell, scanStep lm g cx cy rows cols acc dir = (acc.1 ++ [c], acc.2 ++ [c]) ∧
      dictContains lm c = false := by
  unfold scanStep
  dsimp only
  split
  · exact Or.inl rfl
  · split
    · exact Or.inl rfl
    · split
      · exact Or.inl rfl
      · split
        · exact Or.inl rfl
        · rename_i _ _ h3 _
          exact Or.inr ⟨_, rfl, by simpa using h3⟩

theorem scanFold_spec (lm : Dict Cell (List Cell)) (g : Grid) (cx cy rows cols : Int)
    (dirs : List (Int × Int)) :
    ∀ acc : List Cell × List Cell,
    ∃ add : List Cell,
      dirs.foldl (scanStep lm g cx cy rows cols) acc = (acc.1 ++ add, acc.2 ++ add) ∧
      ∀ c ∈ add, dictContains lm c = false := by
  induction dirs with
  | nil =>
    intro acc
    exact ⟨[], by simp, by simp⟩
  | cons d rest ih =>
    intro acc
    rcases scanStep_cases lm g cx cy rows cols acc d with h | ⟨c, h, hc⟩
    · obtain ⟨add, h1, h2⟩ := ih acc
      refine ⟨add, ?_, h2⟩
      simp only [List.foldl_cons, h]
      exact h1
    · obtain ⟨add, h1, h2⟩ := ih ((acc.1 ++ [c], acc.2 ++ [c]))
      refine ⟨c :: add, ?_, ?_⟩
      · simp only [List.foldl_cons, h]
        rw [h1]
        simp [List.append_assoc]
      · intro x hx
        rcases List.mem_cons.mp hx with rfl | hx
        · exact hc
        · exact h2 x hx

theorem scan_neighbors_spec (s : AgentState) (g : Grid) :
    (scan_neighbors s g).1.local_map = (ensureCurrent s).local_map ∧
    (scan_neighbors s g).1.frontiers =
      (ensureCurrent s).frontiers ++ (scan_neighbors s g).2 ∧
    (scan_neighbors s g).1.target_frontier = s.target_frontier ∧
    (scan_neighbors s g).1.claimed_frontiers = s.claimed_frontiers ∧
    (scan_neighbors s g).1.current_position = s.current_position ∧
    (scan_neighbors s g).1.stuck_counter = s.stuck_counter ∧
    (scan_neighbors s g).1.agent_id = s.agent_id ∧
    ∀ c ∈ (scan_neighbors s g).2, dictContains (ensureCurrent s).local_map c = false := by
  obtain ⟨add, h1, h2⟩ := scanFold_spec (ensureCurrent s).local_map g
    s.current_position.1 s.current_position.2 (g.length : Int) ((g.getD 0 []).length : Int)
    directions ((ensureCurrent s).frontiers, ([] : List Cell))
  simp only [List.nil_append] at h1
  unfold scan_neighbors
  simp only [h1]
  refine ⟨?_, ?_, ?_, ?_, ?_, ?_, ?_, ?_⟩ <;>
    first
      | rfl
      | trivial
      | exact ensureCurrent_target_frontier s
      | exact ensureCurrent_claimed_frontiers s
      | exact ensureCurrent_current_position s
      | exact ensureCurrent_stuck_counter s
      | exact ensureCurrent_agent_id s

theorem mergeNodeStep_frontiers (s : AgentState) (n : Cell) :
    (mergeNodeStep s n).frontiers = s.frontiers := by
  unfold mergeNodeStep; split <;> rfl

theorem mergeNode_fold_frontiers (ns : List Cell) :
    ∀ s : AgentState, (ns.foldl mergeNodeStep s).frontiers = s.frontiers := by
  induction ns with
  | nil => intro s; rfl
  | cons n rest ih =>
    intro s
    simp only [List.foldl_cons]
    rw [ih, mergeNodeStep_frontiers]

theorem mergeFrontier_fold_mem (fs : List Cell) :
    ∀ (s : AgentState) (f : Cell),
      f ∈ (fs.foldl mergeFrontierStep s).frontiers ↔ f ∈ s.frontiers ∨ f ∈ fs := by
  induction fs with
  | nil => intro s f; simp
  | cons f0 rest ih =>
    intro s f
    simp only [List.foldl_cons]
    rw [ih]
    unfold mergeFrontierStep
    split
    · rename_i hmem
      constructor
      · rintro (h | h)
        · exact Or.inl h
        · exact Or.inr (List.mem_cons_of_mem _ h)
      · rintro (h | h)
        · exact Or.inl h
        · rcases List.mem_cons.mp h with rfl | h
          · exact Or.inl hmem
          · exact Or.inr h
    · constructor
      · rintro (h | h)
        · rcases List.mem_append.mp h with h | h
          · exact Or.inl h
          · exact Or.inr (by simpa using Or.inl (List.mem_singleton.mp h))
        · exact Or.inr (List.mem_cons_of_mem _ h)
      · rintro (h | h)
        · exact Or.inl (List.mem_append_left _ h)
        · rcases List.mem_cons.mp h with rfl | h
          · exact Or.inl (List.mem_append_right _ (List.mem_singleton.mpr rfl))
          · exact Or.inr h

theorem mergeNodeStep_contains_mono (s : AgentState) (n c : Cell)
    (h : dictContains s.local_map c = true) :
    dictContains (mergeNodeStep s n).local_map c = true := by
  unfold mergeNodeStep
  split
  · exact h
  · rw [dictContains_iff_mem_keys] at h ⊢
    simp only [dictKeys_append]
    exact List.mem_append_left _ h

theorem mergeNode_fold_contains_mono (ns : List Cell) :
    ∀ (s : AgentState) (c : Cell), dictContains s.local_map c = true →
      dictContains ((ns.foldl mergeNodeStep s).local_map) c = true := by
  induction ns with
  | nil => intro s c h; exact h
  | cons n rest ih =>
    intro s c h
    simp only [List.foldl_cons]
    exact ih _ c (mergeNodeStep_contains_mono s n c h)

theorem mergeNode_fold_contains_all (ns : List Cell) :
    ∀ (s : AgentState), ∀ n ∈ ns, dictContains ((ns.foldl mergeNodeStep s).local_map) n = true := by
  induction ns with
  | nil => intro s n hn; simp at hn
  | cons n0 rest ih =>
    intro s n hn
    rcases List.mem_cons.mp hn with rfl | hn
    · simp only [List.foldl_cons]
      apply mergeNode_fold_contains_mono
      unfold mergeNodeStep
      split
      · assumption
      · rw [dictContains_iff_mem_keys]
        simp [dictKeys]
    · exact ih (mergeNodeStep s n0) n hn

theorem mergeNode_fold_id (ns : List Cell) :
    ∀ s : AgentState, (∀ n ∈ ns, dictContains s.local_map n = true) →
      ns.foldl mergeNodeStep s = s := by
  induction ns with
  | nil => intro s _; rfl
  | cons n rest ih =>
    intro s h
    have hstep : mergeNodeStep s n = s := by
      unfold mergeNodeStep
      simp [h n (List.mem_cons_self n rest)]
    simp only [List.foldl_cons, hstep]
    exact ih s (fun m hm => h m (List.mem_cons_of_mem _ hm))

theorem mergeFrontierStep_local_map (s : AgentState) (f : Cell) :
    (mergeFrontierStep s f).local_map = s.local_map := by
  unfold mergeFrontierStep; split <;> rfl

theorem mergeFrontier_fold_local_map (fs : List Cell) :
    ∀ s : AgentState, (fs.foldl mergeFrontierStep s).local_map = s.local_map := by
  induction fs with
  | nil => intro s; rfl
  | cons f rest ih =>
    intro s
    simp only [List.foldl_cons]
    rw [ih, mergeFrontierStep_local_map]

theorem mergeFrontier_fold_id (fs : List Cell) :
    ∀ s : AgentState, (∀ f ∈ fs, f ∈ s.frontiers) → fs.foldl mergeFrontierStep s = s := by
  induction fs with
  | nil => intro s _; rfl
  | cons f rest ih =>
    intro s h
    have hstep : mergeFrontierStep s f = s := by
      unfold mergeFrontierStep
      simp [h f (List.mem_cons_self f rest)]
    simp only [List.foldl_cons, hstep]
    exact ih s (fun m hm => h m (List.mem_cons_of_mem _ hm))

/-- Claim C2, counterexample: the cell `(0,1)` is an open, in-bounds
4-neighbor of the current position `(0,0)` and is already a Local Map key,
yet after a scan the adjacency sets of both `(0,0)` and `(0,1)` are still
empty — `_scan_neighbors` records no adjacency at all, refuting the claim
that the edge is recorded in both cells' adjacency sets. -/
theorem scan_adjacency_counterexample :
    dictContains exploredTwoState.local_map ((0 : Int), (1 : Int)) = true ∧
    is_wall (gridAt openGrid2 0 1) = false ∧
    dictLookup ((scan_neighbors exploredTwoState openGrid2).1.local_map)
      ((0 : Int), (1 : Int)) = some [] ∧
    dictLookup ((scan_neighbors exploredTwoState openGrid2).1.local_map)
      ((0 : Int), (0 : Int)) = some [] := by decide

/-- Claim C2, amended: `_scan_neighbors` never records adjacency.  Its only
effect on the Local Map is to register the current position with an empty
adjacency set when absent; open neighbors that are already Local Map keys
are skipped with no edge recorded, so adjacency sets never grow. -/
theorem scan_records_no_adjacency (s : AgentState) (g : Grid) :
    (scan_neighbors s g).1.local_map = (ensureCurrent s).local_map ∧
    (ensureCurrent s = s ∨
      (ensureCurrent s).local_map = s.local_map ++ [(s.current_position, [])]) := by
  refine ⟨(scan_neighbors_spec s g).1, ?_⟩
  rcases ensureCurrent_cases s with h | ⟨h, _⟩
  · exact Or.inl h
  · exact Or.inr (by rw [h])

/-- Claim C3, counterexample: a MERGE payload listing the frontier `(5,5)`,
which is already a Local Map key of the receiver, still appends `(5,5)` to
the Frontier Set — `_process_merge_packet` only checks membership in the
frontier list, not in the Local Map, refuting "a listed frontier that is
already a Local Map key is never added". -/
theorem merge_frontier_counterexample :
    dictContains mappedFiveState.local_map ((5 : Int), (5 : Int)) = true ∧
    ((5 : Int), (5 : Int)) ∉ mappedFiveState.frontiers ∧
    (process_merge_packet mappedFiveState fiveFrontierPayload).frontiers
      = [((5 : Int), (5 : Int))] := by decide

/-- Claim C3, amended: when a MapUpdate message is processed, each listed
frontier is added to the Frontier Set if and only if it is not already a
member of the Frontier Set; membership in the Local Map is not consulted
(such a zombie entry is only pruned by the CLEANUP phase of a later tick). -/
theorem merge_frontier_membership (s : AgentState) (p : Payload) (f : Cell) :
    f ∈ (process_merge_packet s p).frontiers ↔
      f ∈ s.frontiers ∨ f ∈ p.frontiers.getD [] := by
  unfold process_merge_packet
  rw [mergeFrontier_fold_mem, mergeNode_fold_frontiers]

/-- Claim C8, confirmed: merging the same MapUpdate payload twice in
succession yields exactly the same agent state — in particular the same
Local Map and Frontier Set — as merging it once. -/
theorem merge_idempotent (s : AgentState) (p : Payload) :
    process_merge_packet (process_merge_packet s p) p = process_merge_packet s p := by
  unfold process_merge_packet
  have h1 : (p.nodes.getD []).foldl mergeNodeStep
      ((p.frontiers.getD []).foldl mergeFrontierStep ((p.nodes.getD []).foldl mergeNodeStep s))
      = (p.frontiers.getD []).foldl mergeFrontierStep ((p.nodes.getD []).foldl mergeNodeStep s) := by
    apply mergeNode_fold_id
    intro n hn
    rw [mergeFrontier_fold_local_map]
    exact mergeNode_fold_contains_all _ _ n hn
  rw [h1]
  apply mergeFrontier_fold_id
  intro f hf
  rw [mergeFrontier_fold_mem]
  exact Or.inr hf

/-- Claim C9, counterexample: the message string `42` is in the claim's
scope (it does not decode to a MERGE or CLAIM message), yet processing it
raises an error — `json.loads` succeeds with a non-object, so
`payload.get("type")` raises `AttributeError` and only `JSONDecodeError`
is caught — refuting "processing the message raises no error" (the local
state is nevertheless unchanged when the exception propagates). -/
theorem process_message_counterexample :
    process_message freshState ParsedMsg.nonDict =
      (freshState, some PyError.attributeError) ∧
    (process_message freshState ParsedMsg.nonDict).2 ≠ none := by decide

/-- Claim C9, amended: a message that fails to parse as JSON (the caught
`JSONDecodeError`) or parses to a JSON object whose type is neither MERGE
nor CLAIM is dropped: no error escapes and the whole agent state — Local
Map, Frontier Set, Claim Table, target, position, stuck counter — is
unchanged; but a message that parses to valid non-object JSON (such as
`42` or `null`) raises an uncaught `AttributeError` at
`payload.get("type")`, while still leaving all local state unchanged. -/
theorem process_message_error_spec (s : AgentState) (p : Payload)
    (hp : p.type ≠ some ("MERGE") ∧ p.type ≠ some ("CLAIM")) :
    process_message s ParsedMsg.failure = (s, none) ∧
    process_message s (ParsedMsg.dict p) = (s, none) ∧
    process_message s ParsedMsg.nonDict = (s, some PyError.attributeError) := by
  refine ⟨rfl, ?_, rfl⟩
  unfold process_message
  simp [hp.1, hp.2]

/-- Witness for C9 (amended): a concrete PING object is dropped with no
error and no state change. -/
theorem process_message_error_spec_witness :
    pingPayload.type ≠ some ("MERGE") ∧ pingPayload.type ≠ some ("CLAIM") ∧
    process_message freshState (ParsedMsg.dict pingPayload) = (freshState, none) :=
  ⟨by decide, by decide,
    (process_message_error_spec freshState pingPayload ⟨by decide, by decide⟩).2.1⟩

theorem process_claim_message (s sender : AgentState) (F : Cell) :
    (process_message s (ParsedMsg.dict (broadcast_frontier_claim sender F))).1 =
      (match dictLookup s.claimed_frontiers F with
       | none =>
         { s with claimed_frontiers := dictSet s.claimed_frontiers F sender.agent_id }
       | some owner =>
         if sender.agent_id < owner then
           { s with claimed_frontiers := dictSet s.claimed_frontiers F sender.agent_id }
         else s) := by
  simp only [process_message, broadcast_frontier_claim, process_claim_packet,
    Option.getD_some, Option.some.injEq, String.reduceEq, if_false, reduceCtorEq,
    if_true]

theorem claim_step_lookup (s sender : AgentState) (F : Cell) :
    dictLookup (process_message s
      (ParsedMsg.dict (broadcast_frontier_claim sender F))).1.claimed_frontiers F =
      (match dictLookup s.claimed_frontiers F with
       | none => some sender.agent_id
       | some owner =>
         if sender.agent_id < owner then some sender.agent_id else some owner) := by
  rw [process_claim_message]
  cases hl : dictLookup s.claimed_frontiers F with
  | none =>
    dsimp only
    exact dictLookup_dictSet_self _ _ _
  | some owner =>
    dsimp only
    split
    · exact dictLookup_dictSet_self _ _ _
    · exact hl

/-- Claim C4, confirmed: when agents with identifiers 1 and 2 both claim the
same frontier F, each recording itself locally first (the unconditional
`claimed_frontiers[selected] = agent_id` of DECIDE), then after both CLAIM
announcements are delivered to every agent, in either delivery order, every
agent's Claim Table maps F to 1 — for any third agent, provided no owner of
F below identifier 1 was ever recorded in its table. -/
theorem claim_convergence (F : Cell) (sA sB sC : AgentState)
    (hA : sA.agent_id = 1) (hB : sB.agent_id = 2)
    (hC : ∀ v, dictLookup sC.claimed_frontiers F = some v → 1 ≤ v) :
    dictLookup (process_message
      { sA with claimed_frontiers := dictSet sA.claimed_frontiers F sA.agent_id,
                target_frontier := some F }
      (ParsedMsg.dict (broadcast_frontier_claim sB F))).1.claimed_frontiers F = some 1 ∧
    dictLookup (process_message
      { sB with claimed_frontiers := dictSet sB.claimed_frontiers F sB.agent_id,
                target_frontier := some F }
      (ParsedMsg.dict (broadcast_frontier_claim sA F))).1.claimed_frontiers F = some 1 ∧
    dictLookup (process_message
      (process_message sC (ParsedMsg.dict (broadcast_frontier_claim sA F))).1
      (ParsedMsg.dict (broadcast_frontier_claim sB F))).1.claimed_frontiers F = some 1 ∧
    dictLookup (process_message
      (process_message sC (ParsedMsg.dict (broadcast_frontier_claim sB F))).1
      (ParsedMsg.dict (broadcast_frontier_claim sA F))).1.claimed_frontiers F = some 1 := by
  refine ⟨?_, ?_, ?_, ?_⟩
  · rw [claim_step_lookup]
    have hself : dictLookup ({ sA with
        claimed_frontiers := dictSet sA.claimed_frontiers F sA.agent_id,
        target_frontier := some F } : AgentState).claimed_frontiers F = some 1 := by
      dsimp only
      rw [dictLookup_dictSet_self, hA]
    rw [hself, hB]
    norm_num
  · rw [claim_step_lookup]
    have hself : dictLookup ({ sB with
        claimed_frontiers := dictSet sB.claimed_frontiers F sB.agent_id,
        target_frontier := some F } : AgentState).claimed_frontiers F = some 2 := by
      dsimp only
      rw [dictLookup_dictSet_self, hB]
    rw [hself, hA]
    norm_num
  · rw [claim_step_lookup, claim_step_lookup, hA, hB]
    cases hl : dictLookup sC.claimed_frontiers F with
    | none => norm_num
    | some v =>
      have hv := hC v hl
      dsimp only
      by_cases h1 : (1 : Int) < v
      · simp [h1]
      · have hv1 : v = 1 := le_antisymm (not_lt.mp h1) hv
        subst hv1
        simp
  · rw [claim_step_lookup, claim_step_lookup, hA, hB]
    cases hl : dictLookup sC.claimed_frontiers F with
    | none => norm_num
    | some v =>
      have hv := hC v hl
      dsimp only
      by_cases h2 : (2 : Int) < v
      · simp [h2]
      · by_cases h1 : (1 : Int) < v
        · simp [h2, h1]
        · have hv1 : v = 1 := le_antisymm (not_lt.mp h1) hv
          subst hv1
          simp

/-- Witness for C4: concrete agents with identifiers 1 and 2 and a third
agent with an empty Claim Table, frontier `(3,3)`. -/
theorem claim_convergence_witness :
    exploredTwoState.agent_id = 1 ∧ freshState.agent_id = 2 ∧
    dictLookup (process_message
      (process_message mappedFiveState
        (ParsedMsg.dict (broadcast_frontier_claim exploredTwoState ((3 : Int), (3 : Int))))).1
      (ParsedMsg.dict (broadcast_frontier_claim freshState
        ((3 : Int), (3 : Int))))).1.claimed_frontiers ((3 : Int), (3 : Int)) = some 1 :=
  ⟨rfl, rfl,
    (claim_convergence ((3 : Int), (3 : Int)) exploredTwoState freshState mappedFiveState
      rfl rfl (fun _ h => Option.noConfusion h)).2.2.1⟩

theorem tickCleanup_spec (s : AgentState) :
    (tickCleanup s).local_map = (ensureCurrent s).local_map ∧
    (tickCleanup s).frontiers = s.frontiers.filter
      (fun f => ¬ dictContains (ensureCurrent s).local_map f = true) ∧
    (tickCleanup s).current_position = s.current_position ∧
    (tickCleanup s).claimed_frontiers = s.claimed_frontiers ∧
    (tickCleanup s).agent_id = s.agent_id ∧
    (tickCleanup s).stuck_counter = s.stuck_counter := by
  unfold tickCleanup
  dsimp only
  split <;>
    exact ⟨rfl, by rw [ensureCurrent_frontiers], ensureCurrent_current_position s,
      ensureCurrent_claimed_frontiers s, ensureCurrent_agent_id s,
      ensureCurrent_stuck_counter s⟩

theorem tickYield_spec (s : AgentState) :
    (tickYield s).local_map = s.local_map ∧
    (tickYield s).frontiers = s.frontiers ∧
    (tickYield s).current_position = s.current_position ∧
    (tickYield s).claimed_frontiers = s.claimed_frontiers ∧
    (tickYield s).agent_id = s.agent_id ∧
    (tickYield s).stuck_counter = s.stuck_counter := by
  unfold tickYield
  cases s.target_frontier with
  | none => exact ⟨rfl, rfl, rfl, rfl, rfl, rfl⟩
  | some t =>
    dsimp only
    cases dictLookup s.claimed_frontiers t with
    | none => exact ⟨rfl, rfl, rfl, rfl, rfl, rfl⟩
    | some owner_id =>
      dsimp only
      split <;> exact ⟨rfl, rfl, rfl, rfl, rfl, rfl⟩

theorem tickDecide_spec (choice : List Cell → Cell) (s : AgentState) :
    (tickDecide choice s).1.local_map = s.local_map ∧
    (tickDecide choice s).1.frontiers = s.frontiers ∧
    (tickDecide choice s).1.current_position = s.current_position ∧
    (tickDecide choice s).1.agent_id = s.agent_id ∧
    (tickDecide choice s).1.stuck_counter = s.stuck_counter := by
  unfold tickDecide
  cases s.target_frontier with
  | some t => exact ⟨rfl, rfl, rfl, rfl, rfl⟩
  | none =>
    dsimp only
    cases select_best_frontier choice s with
    | none => exact ⟨rfl, rfl, rfl, rfl, rfl⟩
    | some selected => exact ⟨rfl, rfl, rfl, rfl, rfl⟩

theorem move_toward_target_fields (choice : List Cell → Cell) (s : AgentState) :
    ((move_toward_target choice s).1.local_map = s.local_map ∨
      (move_toward_target choice s).1.local_map = (ensureCurrent s).local_map) ∧
    (move_toward_target choice s).1.frontiers = s.frontiers ∧
    (move_toward_target choice s).1.current_position = s.current_position ∧
    (move_toward_target choice s).1.agent_id = s.agent_id ∧
    (move_toward_target choice s).1.claimed_frontiers = s.claimed_frontiers := by
  unfold move_toward_target
  cases s.target_frontier with
  | none => exact ⟨Or.inl rfl, rfl, rfl, rfl, rfl⟩
  | some target =>
    dsimp only
    cases find_next_step_bfs (ensureCurrent s) target with
    | none =>
      dsimp only
      split <;>
        exact ⟨Or.inr rfl, ensureCurrent_frontiers s, ensureCurrent_current_position s,
          ensureCurrent_agent_id s, ensureCurrent_claimed_frontiers s⟩
    | some next_step =>
      exact ⟨Or.inr rfl, ensureCurrent_frontiers s, ensureCurrent_current_position s,
        ensureCurrent_agent_id s, ensureCurrent_claimed_frontiers s⟩

theorem tickMove_fields (choice : List Cell → Cell) (s : AgentState) :
    ((tickMove choice s).local_map = s.local_map ∨
      (tickMove choice s).local_map = (ensureCurrent s).local_map) ∧
    (tickMove choice s).frontiers = s.frontiers ∧
    (tickMove choice s).agent_id = s.agent_id := by
  obtain ⟨hlm, hfr, _, hid, _⟩ := move_toward_target_fields choice s
  unfold tickMove
  cases s.target_frontier with
  | none => exact ⟨Or.inl rfl, rfl, rfl⟩
  | some target =>
    dsimp only
    split
    · exact ⟨hlm, hfr, hid⟩
    · split
      · exact ⟨hlm, hfr, hid⟩
      · exact ⟨hlm, hfr, hid⟩

theorem tick_state_eq (choice : List Cell → Cell) (s : AgentState) (g : Grid) :
    (tick choice s g).state =
      tickMove choice
        (tickDecide choice (scan_neighbors (tickYield (tickCleanup s)) g).1).1 := by
  rfl

/-- Claim C6, confirmed: the set of Local Map keys grows monotonically —
every key present before a `tick` (with any grid view and any outcome of the
random choices) is still a key afterwards, and likewise across the
processing of any received message (MERGE, CLAIM, unknown, or unparseable);
no key is ever removed. -/
theorem local_map_monotone (choice : List Cell → Cell) (s : AgentState) (g : Grid)
    (msg : ParsedMsg) (c : Cell) (h : c ∈ dictKeys s.local_map) :
    c ∈ dictKeys (tick choice s g).state.local_map ∧
    c ∈ dictKeys (process_message s msg).1.local_map := by
  constructor
  · rw [tick_state_eq]
    have h1 : c ∈ dictKeys (tickCleanup s).local_map := by
      rw [(tickCleanup_spec s).1]
      exact mem_keys_ensureCurrent s c h
    have h2 : c ∈ dictKeys (tickYield (tickCleanup s)).local_map := by
      rw [(tickYield_spec (tickCleanup s)).1]
      exact h1
    have h3 : c ∈ dictKeys (scan_neighbors (tickYield (tickCleanup s)) g).1.local_map := by
      rw [(scan_neighbors_spec (tickYield (tickCleanup s)) g).1]
      exact mem_keys_ensureCurrent _ c h2
    have h4 : c ∈ dictKeys
        (tickDecide choice (scan_neighbors (tickYield (tickCleanup s)) g).1).1.local_map := by
      rw [(tickDecide_spec choice _).1]
      exact h3
    rcases (tickMove_fields choice _).1 with hm | hm <;> rw [hm]
    · exact h4
    · exact mem_keys_ensureCurrent _ c h4
  · cases msg with
    | failure => exact h
    | nonDict => exact h
    | dict p =>
      unfold process_message
      dsimp only
      split
      · unfold process_merge_packet
        rw [mergeFrontier_fold_local_map]
        rw [← dictContains_iff_mem_keys] at h ⊢
        exact mergeNode_fold_contains_mono _ s c h
      · split
        · unfold process_claim_packet
          cases p.target_frontier with
          | none => exact h
          | some f =>
            dsimp only
            cases dictLookup s.claimed_frontiers f with
            | none => exact h
            | some owner =>
              dsimp only
              split
              · exact h
              · exact h
        · exact h

/-- Witness for C6: the key `(0,1)` survives a concrete tick and a concrete
MERGE message. -/
theorem local_map_monotone_witness :
    ((0 : Int), (1 : Int)) ∈ dictKeys exploredTwoState.local_map ∧
    ((0 : Int), (1 : Int)) ∈ dictKeys
      (tick headChoice exploredTwoState [[0]]).state.local_map ∧
    ((0 : Int), (1 : Int)) ∈ dictKeys
      (process_message exploredTwoState (ParsedMsg.dict fiveFrontierPayload)).1.local_map := by
  have h := local_map_monotone headChoice exploredTwoState [[0]]
    (ParsedMsg.dict fiveFrontierPayload) ((0 : Int), (1 : Int)) (by decide)
  exact ⟨by decide, h.1, h.2⟩

theorem tickCleanup_contains_current (s : AgentState) :
    dictContains (tickCleanup s).local_map (tickCleanup s).current_position = true := by
  rw [(tickCleanup_spec s).1, (tickCleanup_spec s).2.2.1]
  exact ensureCurrent_contains_current s

theorem tickCleanup_frontier_not_mapped (s : AgentState) (c : Cell)
    (hc : c ∈ (tickCleanup s).frontiers) :
    dictContains (tickCleanup s).local_map c = false := by
  rw [(tickCleanup_spec s).2.1] at hc
  have hmem := List.mem_filter.mp hc
  rw [(tickCleanup_spec s).1]
  simpa using of_decide_eq_true hmem.2

theorem tickMove_local_map_of_contains (choice : List Cell → Cell) (s : AgentState)
    (h : dictContains s.local_map s.current_position = true) :
    (tickMove choice s).local_map = s.local_map := by
  rcases (tickMove_fields choice s).1 with hm | hm
  · exact hm
  · rw [hm, ensureCurrent_eq_of_contains s h]

/-- Claim C7, confirmed: immediately after the CLEANUP phase the Frontier
Set is disjoint from the Local Map keys, and the disjointness still holds in
the state a full tick produces (scan only adds unmapped cells, and no later
phase of the same tick adds a map key that is also a frontier). -/
theorem no_zombie_frontiers (choice : List Cell → Cell) (s : AgentState) (g : Grid)
    (c : Cell) :
    (c ∈ (tickCleanup s).frontiers → c ∉ dictKeys (tickCleanup s).local_map) ∧
    (c ∈ (tick choice s g).state.frontiers →
      c ∉ dictKeys (tick choice s g).state.local_map) := by
  constructor
  · intro hc
    rw [← dictContains_eq_false_iff]
    exact tickCleanup_frontier_not_mapped s c hc
  · intro hc
    have hmaps2 : (tickYield (tickCleanup s)).local_map = (tickCleanup s).local_map :=
      (tickYield_spec (tickCleanup s)).1
    have hfr2 : (tickYield (tickCleanup s)).frontiers = (tickCleanup s).frontiers :=
      (tickYield_spec (tickCleanup s)).2.1
    have hpos2 : (tickYield (tickCleanup s)).current_position =
        (tickCleanup s).current_position :=
      (tickYield_spec (tickCleanup s)).2.2.1
    have hc2 : dictContains (tickYield (tickCleanup s)).local_map
        (tickYield (tickCleanup s)).current_position = true := by
      rw [hmaps2, hpos2]
      exact tickCleanup_contains_current s
    have hens2 : ensureCurrent (tickYield (tickCleanup s)) = tickYield (tickCleanup s) :=
      ensureCurrent_eq_of_contains _ hc2
    obtain ⟨hsm, hsf, _, _, hsp, _, _, hadd⟩ :=
      scan_neighbors_spec (tickYield (tickCleanup s)) g
    rw [hens2] at hsm hsf hadd
    obtain ⟨hdm, hdf, hdp, _, _⟩ :=
      tickDecide_spec choice (scan_neighbors (tickYield (tickCleanup s)) g).1
    have hc4 : dictContains
        (tickDecide choice (scan_neighbors (tickYield (tickCleanup s)) g).1).1.local_map
        (tickDecide choice
          (scan_neighbors (tickYield (tickCleanup s)) g).1).1.current_position = true := by
      rw [hdm, hdp, hsm, hsp]
      exact hc2
    have hmv := tickMove_local_map_of_contains choice
      (tickDecide choice (scan_neighbors (tickYield (tickCleanup s)) g).1).1 hc4
    have hmvf := (tickMove_fields choice
      (tickDecide choice (scan_neighbors (tickYield (tickCleanup s)) g).1).1).2.1
    rw [tick_state_eq] at hc ⊢
    rw [hmv, hdm, hsm, hmaps2]
    rw [hmvf, hdf, hsf, hfr2] at hc
    rw [← dictContains_eq_false_iff]
    rcases List.mem_append.mp hc with h | h
    · exact tickCleanup_frontier_not_mapped s c h
    · rw [hmaps2] at hadd
      exact hadd c h

/-- Witness for C7: after a concrete tick of an agent that keeps frontier
`(9,9)`, the frontier is not a Local Map key, neither right after CLEANUP
nor at the end of the tick. -/
theorem no_zombie_frontiers_witness :
    (((9 : Int), (9 : Int)) ∈ (tickCleanup stuckFourState).frontiers ∧
      ((9 : Int), (9 : Int)) ∉ dictKeys (tickCleanup stuckFourState).local_map) ∧
    (((9 : Int), (9 : Int)) ∈ (tick headChoice stuckFourState [[0]]).state.frontiers ∧
      ((9 : Int), (9 : Int)) ∉ dictKeys
        (tick headChoice stuckFourState [[0]]).state.local_map) := by
  have h := no_zombie_frontiers headChoice stuckFourState [[0]] ((9 : Int), (9 : Int))
  exact ⟨⟨by decide, h.1 (by decide)⟩, ⟨by decide, h.2 (by decide)⟩⟩

theorem headChoice_mem (l : List Cell) (h : l ≠ []) : headChoice l ∈ l := by
  cases l with
  | nil => exact absurd rfl h
  | cons a as =>
    show List.headD (a :: as) ((0 : Int), (0 : Int)) ∈ a :: as
    simp

/-- Claim C5, counterexample: with the stuck counter at 4, an unreachable
target and a non-empty Frontier Set, the 5th consecutive path failure
leaves the counter at 5 and the target empty — no frontier is
force-assigned, because the code requires `stuck_counter > 5`, i.e. a 6th
consecutive failure, refuting "once 5 consecutive path failures have
occurred ... it force-assigns a random member of the Frontier Set". -/
theorem move_stuck_counterexample :
    stuckFourState.stuck_counter = 4 ∧
    stuckFourState.frontiers ≠ [] ∧
    find_next_step_bfs (ensureCurrent stuckFourState) ((5 : Int), (5 : Int)) = none ∧
    (move_toward_target headChoice stuckFourState).1.stuck_counter = 5 ∧
    (move_toward_target headChoice stuckFourState).1.target_frontier = none := by
  decide

/-- Claim C5, amended: whenever the Path Engine finds no step to the current
target, the move drops the target and increments the stuck counter; only
once the incremented counter exceeds 5 — that is, on the 6th consecutive
failure — and the Frontier Set is non-empty does it force-assign a random
member of the Frontier Set and reset the counter to 0; whenever a step is
found, the counter is reset to 0 and the step is returned. -/
theorem move_toward_target_stuck_spec (choice : List Cell → Cell) (s : AgentState)
    (t : Cell) (ht : s.target_frontier = some t)
    (hchoice : ∀ l : List Cell, l ≠ [] → choice l ∈ l) :
    (find_next_step_bfs (ensureCurrent s) t = none →
      ((s.stuck_counter + 1 > 5 ∧ s.frontiers ≠ []) →
        (move_toward_target choice s).1.target_frontier = some (choice s.frontiers) ∧
        choice s.frontiers ∈ s.frontiers ∧
        (move_toward_target choice s).1.stuck_counter = 0) ∧
      (¬ (s.stuck_counter + 1 > 5 ∧ s.frontiers ≠ []) →
        (move_toward_target choice s).1.target_frontier = none ∧
        (move_toward_target choice s).1.stuck_counter = s.stuck_counter + 1) ∧
      (move_toward_target choice s).2 = s.current_position) ∧
    (∀ st, find_next_step_bfs (ensureCurrent s) t = some st →
      (move_toward_target choice s).1.stuck_counter = 0 ∧
      (move_toward_target choice s).2 = st) := by
  unfold move_toward_target
  rw [ht]
  dsimp only
  cases hfind : find_next_step_bfs (ensureCurrent s) t with
  | none =>
    dsimp only
    rw [ensureCurrent_stuck_counter, ensureCurrent_frontiers, ensureCurrent_current_position]
    constructor
    · intro _
      by_cases hcond : s.stuck_counter + 1 > 5 ∧ ¬ s.frontiers = []
      · rw [if_pos hcond]
        dsimp only
        exact ⟨fun _ => ⟨rfl, hchoice _ hcond.2, rfl⟩, fun hn => absurd hcond hn, rfl⟩
      · rw [if_neg hcond]
        dsimp only
        exact ⟨fun hp => absurd hp hcond, fun _ => ⟨rfl, rfl⟩, rfl⟩
    · intro st hst
      exact Option.noConfusion hst
  | some st0 =>
    dsimp only
    constructor
    · intro hn
      exact Option.noConfusion hn
    · intro st hst
      injection hst with he
      subst he
      exact ⟨rfl, rfl⟩

/-- Witness for C5 (amended): a 6th consecutive failure with frontier
`(9,9)` available force-assigns it and clears the counter. -/
theorem move_toward_target_stuck_spec_witness :
    stuckFiveState.target_frontier = some ((5 : Int), (5 : Int)) ∧
    stuckFiveState.stuck_counter + 1 > 5 ∧
    (move_toward_target headChoice stuckFiveState).1.target_frontier =
      some (headChoice stuckFiveState.frontiers) ∧
    headChoice stuckFiveState.frontiers ∈ stuckFiveState.frontiers ∧
    (move_toward_target headChoice stuckFiveState).1.stuck_counter = 0 := by
  have h := move_toward_target_stuck_spec headChoice stuckFiveState
    ((5 : Int), (5 : Int)) rfl headChoice_mem
  have h2 := (h.1 (by decide)).1 (by decide)
  exact ⟨rfl, by decide, h2.1, h2.2.1, h2.2.2⟩

/-- Claim C1, counterexample: a tick of an agent that discovers nothing new
(the 1×1 grid view leaves every neighbor out of bounds, scan returns no new
frontiers, the Local Map is unchanged) still sends a map-update, and its
`nodes` field lists every Local Map key — including `(0,1)`, discovered on
an earlier tick — refuting both "contains exactly the nodes and frontiers
newly discovered during that tick" and "no message is sent at all when
nothing new was discovered that tick". -/
theorem broadcast_counterexample :
    (tick headChoice exploredTwoState [[0]]).state.local_map =
      exploredTwoState.local_map ∧
    (scan_neighbors (tickYield (tickCleanup exploredTwoState)) [[0]]).2 = [] ∧
    (tick headChoice exploredTwoState [[0]]).map_update_msg =
      some { type := some ("MERGE"), sender_id := some 1,
             nodes := some [((0 : Int), (0 : Int)), ((0 : Int), (1 : Int))],
             frontiers := some [] } := by decide

/-- Claim C1, amended: the BROADCAST phase sends a map-update whose `nodes`
field lists all Local Map keys (not only this tick's discoveries) and whose
`frontiers` field is exactly the list of frontiers newly appended by this
tick's scan; the skip condition (both lists empty) never fires, because
after CLEANUP the Local Map always contains the current position, so a
message is sent on every tick. -/
theorem broadcast_all_nodes (choice : List Cell → Cell) (s : AgentState) (g : Grid) :
    (tick choice s g).map_update_msg =
      some { type := some ("MERGE"),
             sender_id := some (scan_neighbors (tickYield (tickCleanup s)) g).1.agent_id,
             nodes := some
               (dictKeys (scan_neighbors (tickYield (tickCleanup s)) g).1.local_map),
             frontiers := some (scan_neighbors (tickYield (tickCleanup s)) g).2 } ∧
    (scan_neighbors (tickYield (tickCleanup s)) g).1.frontiers =
      (tickYield (tickCleanup s)).frontiers ++
        (scan_neighbors (tickYield (tickCleanup s)) g).2 ∧
    dictKeys (scan_neighbors (tickYield (tickCleanup s)) g).1.local_map ≠ [] := by
  have hkeys : dictKeys (scan_neighbors (tickYield (tickCleanup s)) g).1.local_map ≠ [] := by
    have hc := ensureCurrent_contains_current (tickYield (tickCleanup s))
    rw [← (scan_neighbors_spec (tickYield (tickCleanup s)) g).1] at hc
    rw [dictContains_iff_mem_keys] at hc
    intro hnil
    rw [hnil] at hc
    exact List.not_mem_nil _ hc
  refine ⟨?_, ?_, hkeys⟩
  · show broadcast_map_update (scan_neighbors (tickYield (tickCleanup s)) g).1
      (dictKeys (scan_neighbors (tickYield (tickCleanup s)) g).1.local_map)
      (scan_neighbors (tickYield (tickCleanup s)) g).2 = _
    unfold broadcast_map_update
    rw [if_neg (fun hc => hkeys hc.1)]
  · rw [(scan_neighbors_spec (tickYield (tickCleanup s)) g).2.1, ensureCurrent_frontiers]

theorem pushStep_lockstep (lm : Dict Cell (List Cell)) (t c : Cell) (d : Nat)
    (path : List Cell) (qd : List (Cell × Nat)) (qp : List (Cell × List Cell))
    (v : List Cell) (dir : Int × Int) :
    (distPushStep lm t c d (qd, v) dir = (qd, v) ∧
      pathPushStep lm t c path (qp, v) dir = (qp, v)) ∨
    (∃ n : Cell,
      distPushStep lm t c d (qd, v) dir = (qd ++ [(n, d + 1)], n :: v) ∧
      pathPushStep lm t c path (qp, v) dir = (qp ++ [(n, path ++ [n])], n :: v)) := by
  unfold distPushStep pathPushStep
  dsimp only
  by_cases h1 : ((c.1 + dir.1, c.2 + dir.2) : Cell) ∈ v
  · rw [if_pos h1, if_pos h1]
    exact Or.inl ⟨rfl, rfl⟩
  · rw [if_neg h1, if_neg h1]
    by_cases h2 : dictContains lm ((c.1 + dir.1, c.2 + dir.2) : Cell) = true ∨
        ((c.1 + dir.1, c.2 + dir.2) : Cell) = t
    · rw [if_pos h2, if_pos h2]
      exact Or.inr ⟨_, rfl, rfl⟩
    · rw [if_neg h2, if_neg h2]
      exact Or.inl ⟨rfl, rfl⟩

theorem push_fold_lockstep (lm : Dict Cell (List Cell)) (t c : Cell) (d : Nat)
    (path : List Cell) (dirs : List (Int × Int)) :
    ∀ (qd : List (Cell × Nat)) (qp : List (Cell × List Cell)) (v : List Cell),
      qd.map Prod.fst = qp.map Prod.fst →
      ((dirs.foldl (distPushStep lm t c d) (qd, v)).1.map Prod.fst =
        (dirs.foldl (pathPushStep lm t c path) (qp, v)).1.map Prod.fst) ∧
      ((dirs.foldl (distPushStep lm t c d) (qd, v)).2 =
        (dirs.foldl (pathPushStep lm t c path) (qp, v)).2) ∧
      (∀ x ∈ (dirs.foldl (pathPushStep lm t c path) (qp, v)).1,
        x ∈ qp ∨ x.2 = path ++ [x.1]) := by
  induction dirs with
  | nil =>
    intro qd qp v h
    exact ⟨h, rfl, fun x hx => Or.inl hx⟩
  | cons dir rest ih =>
    intro qd qp v h
    simp only [List.foldl_cons]
    rcases pushStep_lockstep lm t c d path qd qp v dir with ⟨hd, hp⟩ | ⟨n, hd, hp⟩
    · rw [hd, hp]
      exact ih qd qp v h
    · rw [hd, hp]
      obtain ⟨ih1, ih2, ih3⟩ := ih (qd ++ [(n, d + 1)]) (qp ++ [(n, path ++ [n])]) (n :: v)
        (by simp [h])
      refine ⟨ih1, ih2, ?_⟩
      intro x hx
      rcases ih3 x hx with hx' | hx'
      · rcases List.mem_append.mp hx' with hx'' | hx''
        · exact Or.inl hx''
        · rcases List.mem_singleton.mp hx'' with rfl
          exact Or.inr rfl
      · exact Or.inr hx'

theorem bfs_loop_lockstep (lm : Dict Cell (List Cell)) (t : Cell) :
    ∀ (fuel : Nat) (qd : List (Cell × Nat)) (qp : List (Cell × List Cell)) (v : List Cell),
      qd.map Prod.fst = qp.map Prod.fst →
      (∀ x ∈ qp, 1 ≤ x.2.length ∧ (x.1 = t → 1 < x.2.length)) →
      (bfsDistLoop lm t fuel qd v = none ↔ bfsPathLoop lm t fuel qp v = none) := by
  intro fuel
  induction fuel with
  | zero =>
    intro qd qp v h hinv
    simp [bfsDistLoop, bfsPathLoop]
  | succ n ih =>
    intro qd qp v h hinv
    cases qd with
    | nil =>
      cases qp with
      | nil => simp [bfsDistLoop, bfsPathLoop]
      | cons x xs => simp at h
    | cons hd tlD =>
      cases qp with
      | nil => simp at h
      | cons hp0 tlP =>
        obtain ⟨c, dd⟩ := hd
        obtain ⟨c', pth⟩ := hp0
        have hcc : c = c' ∧ tlD.map Prod.fst = tlP.map Prod.fst := by
          simpa using h
        obtain ⟨hc, htl⟩ := hcc
        subst hc
        simp only [bfsDistLoop, bfsPathLoop]
        by_cases hct : c = t
        · rw [if_pos hct, if_pos hct]
          have hh := hinv (c, pth) (List.mem_cons_self _ _)
          have hlen : 1 < pth.length := hh.2 hct
          constructor
          · intro habs
            exact absurd habs (by simp)
          · intro habs
            rw [List.getElem?_eq_none_iff] at habs
            omega
        · rw [if_neg hct, if_neg hct]
          obtain ⟨e1, e2, e3⟩ := push_fold_lockstep lm t c dd pth directions tlD tlP v htl
          rw [e2]
          apply ih _ _ _ e1
          intro x hx
          rcases e3 x hx with hx' | hx'
          · exact hinv x (List.mem_cons_of_mem _ hx')
          · have hbase : 1 ≤ pth.length := by
              simpa using (hinv (c, pth) (List.mem_cons_self _ _)).1
            constructor
            · rw [hx']
              simp
            · intro _
              rw [hx']
              simp only [List.length_append, List.length_singleton]
              omega

theorem distPush_fold_mem (lm : Dict Cell (List Cell)) (t c : Cell) (d : Nat)
    (dirs : List (Int × Int)) :
    ∀ (qd : List (Cell × Nat)) (v : List Cell),
      ∀ x ∈ (dirs.foldl (distPushStep lm t c d) (qd, v)).1, x ∈ qd ∨ x.2 = d + 1 := by
  induction dirs with
  | nil =>
    intro qd v x hx
    exact Or.inl hx
  | cons dir rest ih =>
    intro qd v x hx
    simp only [List.foldl_cons] at hx
    rcases pushStep_lockstep lm t c d [] qd [] v dir with ⟨hd, _⟩ | ⟨n, hd, _⟩
    · rw [hd] at hx
      exact ih qd v x hx
    · rw [hd] at hx
      rcases ih _ _ x hx with hx' | hx'
      · rcases List.mem_append.mp hx' with hx'' | hx''
        · exact Or.inl hx''
        · rcases List.mem_singleton.mp hx'' with rfl
          exact Or.inr rfl
      · exact Or.inr hx'

theorem bfsDistLoop_bound (lm : Dict Cell (List Cell)) (t : Cell) :
    ∀ (fuel : Nat) (qd : List (Cell × Nat)) (v : List Cell) (B : Nat),
      (∀ x ∈ qd, x.2 ≤ B) →
      ∀ dres, bfsDistLoop lm t fuel qd v = some dres → dres ≤ B + fuel := by
  intro fuel
  induction fuel with
  | zero =>
    intro qd v B hB dres h
    simp [bfsDistLoop] at h
  | succ n ih =>
    intro qd v B hB dres h
    cases qd with
    | nil => simp [bfsDistLoop] at h
    | cons hd tl =>
      obtain ⟨c, dd⟩ := hd
      simp only [bfsDistLoop] at h
      by_cases hct : c = t
      · rw [if_pos hct] at h
        have hdd : dd ≤ B := by simpa using hB (c, dd) (List.mem_cons_self _ _)
        injection h with he
        omega
      · rw [if_neg hct] at h
        have hq : ∀ x ∈ (directions.foldl (distPushStep lm t c dd) (tl, v)).1,
            x.2 ≤ B + 1 := by
          intro x hx
          rcases distPush_fold_mem lm t c dd directions tl v x hx with hx' | hx'
          · have := hB x (List.mem_cons_of_mem _ hx')
            omega
          · have hdd : dd ≤ B := by simpa using hB (c, dd) (List.mem_cons_self _ _)
            omega
        have hres := ih _ _ (B + 1) hq dres h
        omega

/-- Claim C10, amended: the two Path Engine operations are consistent on
every Local Map small enough for the sentinel to be unambiguous: when the
Local Map has fewer than 999995 cells (as in any real run), the next-step
computation from the current position to a distinct target returns no step
if and only if the distance computation returns 999999.  Without the size
bound the equivalence fails, because 999999 is also a genuine hop count on a
map with about a million cells (see the corridor counterexample). -/
theorem path_engine_consistent (s : AgentState) (t : Cell)
    (hpt : t ≠ s.current_position) (hsize : s.local_map.length < 999995) :
    (find_next_step_bfs s t = none ↔
      get_bfs_distance s s.current_position t = 999999) := by
  unfold find_next_step_bfs get_bfs_distance
  rw [if_neg hpt, if_neg (fun h => hpt h.symm)]
  have hlock := bfs_loop_lockstep s.local_map t (s.local_map.length + 4)
    [(s.current_position, 0)] [(s.current_position, [s.current_position])]
    [s.current_position] (by simp)
    (by
      intro x hx
      rcases List.mem_singleton.mp hx with rfl
      exact ⟨by simp, fun hxt => absurd hxt.symm (by simpa using hpt)⟩)
  constructor
  · intro hp
    rw [hlock.mpr hp]
    rfl
  · intro hd
    apply hlock.mp
    cases hres : bfsDistLoop s.local_map t (s.local_map.length + 4)
        [(s.current_position, 0)] [s.current_position] with
    | none => rfl
    | some dres =>
      exfalso
      rw [hres] at hd
      simp only [Option.getD_some] at hd
      have hb := bfsDistLoop_bound s.local_map t (s.local_map.length + 4)
        [(s.current_position, 0)] [s.current_position] 0
        (by
          intro x hx
          rcases List.mem_singleton.mp hx with rfl
          simp) dres hres
      omega

/-- Witness for C10 (amended): an agent with an empty Local Map and target
`(1,0)` one cell away. -/
theorem path_engine_consistent_witness :
    ((1 : Int), (0 : Int)) ≠ freshState.current_position ∧
    freshState.local_map.length < 999995 ∧
    (find_next_step_bfs freshState ((1 : Int), (0 : Int)) = none ↔
      get_bfs_distance freshState freshState.current_position
        ((1 : Int), (0 : Int)) = 999999) :=
  ⟨by decide, by decide,
    path_engine_consistent freshState ((1 : Int), (0 : Int)) (by decide) (by decide)⟩

theorem lineMap_length (n : Nat) : (lineMap n).length = n + 1 := by
  unfold lineMap
  rw [List.length_map, List.length_range]

theorem dictKeys_lineMap (n : Nat) :
    dictKeys (lineMap n) =
      (List.range (n + 1)).map (fun k : Nat => (((0 : Int), (k : Int)) : Cell)) := by
  simp only [lineMap, dictKeys, List.map_map]
  rfl

theorem contains_lineMap_true (n : Nat) (x : Cell)
    (h : x.1 = 0 ∧ 0 ≤ x.2 ∧ x.2 ≤ (n : Int)) :
    dictContains (lineMap n) x = true := by
  obtain ⟨a, b⟩ := x
  obtain ⟨h1, h2, h3⟩ := h
  rw [dictContains_iff_mem_keys, dictKeys_lineMap]
  refine List.mem_map.mpr ⟨b.toNat, ?_, ?_⟩
  · rw [List.mem_range]
    omega
  · rw [Prod.ext_iff]
    exact ⟨h1.symm, Int.toNat_of_nonneg h2⟩

theorem contains_lineMap_false (n : Nat) (x : Cell)
    (h : ¬ (x.1 = 0 ∧ 0 ≤ x.2 ∧ x.2 ≤ (n : Int))) :
    dictContains (lineMap n) x = false := by
  rcases Bool.eq_false_or_eq_true (dictContains (lineMap n) x) with hb | hb
  · exfalso
    apply h
    have hmem := (dictContains_iff_mem_keys _ _).mp hb
    rw [dictKeys_lineMap] at hmem
    obtain ⟨k, hk, he⟩ := List.mem_map.mp hmem
    rw [List.mem_range] at hk
    rw [← he]
    refine ⟨rfl, by positivity, ?_⟩
    show (k : Int) ≤ (n : Int)
    omega
  · exact hb

theorem mem_lineVisited (j : Nat) (x : Cell) :
    x ∈ lineVisited j ↔ ∃ i : Nat, i ≤ j ∧ x = ((0 : Int), (i : Int)) := by
  induction j with
  | zero =>
    constructor
    · intro h
      rcases List.mem_singleton.mp h with rfl
      exact ⟨0, le_refl 0, by norm_num⟩
    · rintro ⟨i, hi, rfl⟩
      have hi0 : i = 0 := by omega
      subst hi0
      simp [lineVisited]
  | succ k ih =>
    constructor
    · intro h
      rcases List.mem_cons.mp h with he | hm
      · refine ⟨k + 1, le_refl _, ?_⟩
        rw [he, Prod.ext_iff]
        constructor
        · rfl
        · push_cast
          ring
      · obtain ⟨i, hi, he⟩ := ih.mp hm
        exact ⟨i, by omega, he⟩
    · rintro ⟨i, hi, rfl⟩
      by_cases hik : i = k + 1
      · subst hik
        have hcast : ((k + 1 : Nat) : Int) = (k : Int) + 1 := by push_cast; ring
        show ((0 : Int), ((k + 1 : Nat) : Int)) ∈
          (((0 : Int), (k : Int) + 1)) :: lineVisited k
        rw [hcast]
        exact List.mem_cons_self _ _
      · have hik' : i ≤ k := by omega
        exact List.mem_cons_of_mem _ (ih.mpr ⟨i, hik', rfl⟩)

theorem distPushStep_noop (lm : Dict Cell (List Cell)) (t c : Cell) (d : Nat)
    (acc : List (Cell × Nat) × List Cell) (dir : Int × Int)
    (h : ((c.1 + dir.1, c.2 + dir.2) : Cell) ∈ acc.2 ∨
      (dictContains lm ((c.1 + dir.1, c.2 + dir.2) : Cell) = false ∧
        ((c.1 + dir.1, c.2 + dir.2) : Cell) ≠ t)) :
    distPushStep lm t c d acc dir = acc := by
  unfold distPushStep
  dsimp only
  by_cases hv : ((c.1 + dir.1, c.2 + dir.2) : Cell) ∈ acc.2
  · rw [if_pos hv]
  · rcases h with h | ⟨h1, h2⟩
    · exact absurd h hv
    · rw [if_neg hv, if_neg ?_]
      rintro (hc | hc)
      · rw [h1] at hc
        exact Bool.noConfusion hc
      · exact h2 hc

theorem distPushStep_push_eq (lm : Dict Cell (List Cell)) (t c : Cell) (d : Nat)
    (acc : List (Cell × Nat) × List Cell) (dir : Int × Int)
    (h1 : ((c.1 + dir.1, c.2 + dir.2) : Cell) ∉ acc.2)
    (h2 : dictContains lm ((c.1 + dir.1, c.2 + dir.2) : Cell) = true) :
    distPushStep lm t c d acc dir =
      (acc.1 ++ [(((c.1 + dir.1, c.2 + dir.2) : Cell), d + 1)],
        ((c.1 + dir.1, c.2 + dir.2) : Cell) :: acc.2) := by
  unfold distPushStep
  dsimp only
  rw [if_neg h1, if_pos (Or.inl h2)]

theorem line_fold_step (N j : Nat) (hj : j < N) :
    directions.foldl
      (distPushStep (lineMap N) ((0 : Int), (N : Int)) ((0 : Int), (j : Int)) j)
      ([], lineVisited j) =
      ([((((0 : Int), ((j + 1 : Nat) : Int))), j + 1)], lineVisited (j + 1)) := by
  have e1 : distPushStep (lineMap N) ((0 : Int), (N : Int)) ((0 : Int), (j : Int)) j
      ([], lineVisited j) ((-1 : Int), (0 : Int)) = ([], lineVisited j) := by
    apply distPushStep_noop
    refine Or.inr ⟨contains_lineMap_false N _ ?_, ?_⟩
    · dsimp only
      rintro ⟨h1, -, -⟩
      norm_num at h1
    · dsimp only
      intro he
      rw [Prod.ext_iff] at he
      obtain ⟨h1, -⟩ := he
      norm_num at h1
  have e2 : distPushStep (lineMap N) ((0 : Int), (N : Int)) ((0 : Int), (j : Int)) j
      ([], lineVisited j) ((1 : Int), (0 : Int)) = ([], lineVisited j) := by
    apply distPushStep_noop
    refine Or.inr ⟨contains_lineMap_false N _ ?_, ?_⟩
    · dsimp only
      rintro ⟨h1, -, -⟩
      norm_num at h1
    · dsimp only
      intro he
      rw [Prod.ext_iff] at he
      obtain ⟨h1, -⟩ := he
      norm_num at h1
  have e3 : distPushStep (lineMap N) ((0 : Int), (N : Int)) ((0 : Int), (j : Int)) j
      ([], lineVisited j) ((0 : Int), (-1 : Int)) = ([], lineVisited j) := by
    apply distPushStep_noop
    rcases Nat.eq_zero_or_pos j with hj0 | hj0
    · subst hj0
      refine Or.inr ⟨contains_lineMap_false N _ ?_, ?_⟩
      · dsimp only
        rintro ⟨-, h2, -⟩
        omega
      · dsimp only
        intro he
        rw [Prod.ext_iff] at he
        obtain ⟨-, h2⟩ := he
        omega
    · refine Or.inl ?_
      rw [mem_lineVisited]
      refine ⟨j - 1, by omega, ?_⟩
      dsimp only
      rw [Prod.ext_iff]
      constructor
      · norm_num
      · omega
  have e4 : distPushStep (lineMap N) ((0 : Int), (N : Int)) ((0 : Int), (j : Int)) j
      ([], lineVisited j) ((0 : Int), (1 : Int)) =
      ([] ++ [((((0 : Int), (j : Int)).1 + (0 : Int),
          ((0 : Int), (j : Int)).2 + (1 : Int)), j + 1)],
        (((0 : Int), (j : Int)).1 + (0 : Int),
          ((0 : Int), (j : Int)).2 + (1 : Int)) :: lineVisited j) := by
    apply distPushStep_push_eq
    · dsimp only
      rw [mem_lineVisited]
      rintro ⟨i, hi, he⟩
      rw [Prod.ext_iff] at he
      obtain ⟨-, h2⟩ := he
      omega
    · apply contains_lineMap_true
      dsimp only
      refine ⟨by norm_num, by omega, by omega⟩
  simp only [directions, List.foldl_cons, List.foldl_nil]
  rw [e1, e2, e3, e4]
  rw [Prod.ext_iff]
  constructor
  · dsimp only
    rw [List.nil_append]
    have : ((0 : Int) + (0 : Int), (j : Int) + (1 : Int)) =
        (((0 : Int), ((j + 1 : Nat) : Int)) : Cell) := by
      rw [Prod.ext_iff]
      constructor
      · norm_num
      · push_cast
        ring
    rw [this]
  · show ((0 : Int) + (0 : Int), (j : Int) + (1 : Int)) :: lineVisited j = lineVisited (j + 1)
    have : ((0 : Int) + (0 : Int), (j : Int) + (1 : Int)) =
        (((0 : Int), (j : Int) + 1) : Cell) := by
      rw [Prod.ext_iff]
      constructor
      · norm_num
      · ring
    rw [this]
    rfl

theorem line_dist_loop (N : Nat) :
    ∀ (m j : Nat), j + m = N → ∀ fuel, m + 1 ≤ fuel →
      bfsDistLoop (lineMap N) ((0 : Int), (N : Int)) fuel
        [((((0 : Int), (j : Int))), j)] (lineVisited j) = some N := by
  intro m
  induction m with
  | zero =>
    intro j hj fuel hf
    obtain ⟨f, rfl⟩ : ∃ f, fuel = f + 1 := ⟨fuel - 1, by omega⟩
    have hjN : j = N := by omega
    subst hjN
    simp [bfsDistLoop]
  | succ k ih =>
    intro j hj fuel hf
    obtain ⟨f, rfl⟩ : ∃ f, fuel = f + 1 := ⟨fuel - 1, by omega⟩
    have hjN : j < N := by omega
    simp only [bfsDistLoop]
    rw [if_neg ?_, line_fold_step N j hjN]
    · exact ih (j + 1) (by omega) f (by omega)
    · intro he
      rw [Prod.ext_iff] at he
      obtain ⟨-, h2⟩ := he
      omega

/-- Claim C10, counterexample: on an agent whose Local Map is a straight
corridor of exactly 999999 steps from its position `(0,0)` to the mapped
cell `(0,999999)`, the true-distance computation returns the sentinel value
999999 even though the target is reachable, and the next-step computation
returns a step; so "no step if and only if distance = 999999" is false as
stated — the sentinel is ambiguous at a genuine hop count of 999999. -/
theorem path_engine_counterexample :
    ((0 : Int), (999999 : Int)) ≠ (lineState 999999).current_position ∧
    get_bfs_distance (lineState 999999) (lineState 999999).current_position
      ((0 : Int), (999999 : Int)) = 999999 ∧
    find_next_step_bfs (lineState 999999) ((0 : Int), (999999 : Int)) ≠ none := by
  have hne : (((0 : Int), (999999 : Int)) : Cell) ≠ ((0 : Int), (0 : Int)) := by
    intro he
    rw [Prod.ext_iff] at he
    obtain ⟨-, h2⟩ := he
    norm_num at h2
  have hdist : bfsDistLoop (lineMap 999999) ((0 : Int), (999999 : Int))
      ((lineMap 999999).length + 4) [((((0 : Int), (0 : Int))), 0)]
      [((0 : Int), (0 : Int))] = some 999999 := by
    have h0 := line_dist_loop 999999 999999 0 (by norm_num)
      ((lineMap 999999).length + 4) (by rw [lineMap_length]; norm_num)
    simpa [lineVisited] using h0
  have hpos : (lineState 999999).current_position = ((0 : Int), (0 : Int)) := rfl
  have hlm : (lineState 999999).local_map = lineMap 999999 := by
    unfold lineState
    with_reducible rfl
  refine ⟨?_, ?_, ?_⟩
  · rw [hpos]
    exact hne
  · unfold get_bfs_distance
    have hcond : ¬ ((lineState 999999).current_position =
        (((0 : Int), (999999 : Int)) : Cell)) := by
      rw [hpos]
      exact fun h => hne h.symm
    rw [if_neg hcond, hlm, hpos, hdist]
    rfl
  · unfold find_next_step_bfs
    have hcond2 : ¬ ((((0 : Int), (999999 : Int)) : Cell) =
        (lineState 999999).current_position) := by
      rw [hpos]
      exact hne
    rw [if_neg hcond2, hlm, hpos]
    intro hnone
    have hlock := bfs_loop_lockstep (lineMap 999999) ((0 : Int), (999999 : Int))
      ((lineMap 999999).length + 4) [((((0 : Int), (0 : Int))), 0)]
      [((((0 : Int), (0 : Int))), [((0 : Int), (0 : Int))])] [((0 : Int), (0 : Int))]
      (by simp)
      (by
        intro x hx
        rcases List.mem_singleton.mp hx with rfl
        exact ⟨by simp, fun hxt => absurd hxt.symm hne⟩)
    have hd := hlock.mpr hnone
    rw [hdist] at hd
    exact Option.noConfusion hd

theorem filter_cons_length (n : Cell) (v : List Cell) (hnv : n ∉ v) :
    ∀ L : List Cell, L.Nodup → n ∈ L →
      (L.filter (fun c => ¬ c ∈ (n :: v))).length + 1 =
        (L.filter (fun c => ¬ c ∈ v)).length := by
  intro L
  induction L with
  | nil =>
    intro _ hn
    simp at hn
  | cons a L' ih =>
    intro hN hn
    have hN' : L'.Nodup := (List.nodup_cons.mp hN).2
    have haL : a ∉ L' := (List.nodup_cons.mp hN).1
    simp only [List.filter_cons]
    by_cases han : a = n
    · subst han
      have heq : L'.filter (fun c => ¬ c ∈ (a :: v)) = L'.filter (fun c => ¬ c ∈ v) := by
        apply List.filter_congr
        intro c hc
        have hca : c ≠ a := fun he => haL (he ▸ hc)
        simp [hca]
      rw [if_neg (by simp), if_pos (by simpa using hnv), heq]
      simp
    · have hn' : n ∈ L' := by
        rcases List.mem_cons.mp hn with he | hm
        · exact absurd he.symm han
        · exact hm
      by_cases hav : a ∈ v
      · rw [if_neg (by simp [List.mem_cons.mpr (Or.inr hav)]), if_neg (by simp [hav])]
        exact ih hN' hn'
      · rw [if_pos (by simp [List.mem_cons, han, hav]), if_pos (by simpa using hav)]
        have := ih hN' hn'
        simp only [List.length_cons]
        omega

theorem bfsPotential_cons (lm : Dict Cell (List Cell)) (t : Cell) (v : List Cell)
    (n : Cell) (hmem : n = t ∨ n ∈ dictKeys lm) (hnv : n ∉ v) :
    bfsPotential lm t (n :: v) + 1 = bfsPotential lm t v := by
  unfold bfsPotential
  apply filter_cons_length n v hnv
  · exact List.nodup_dedup _
  · rw [List.mem_dedup]
    rcases hmem with hm | hm
    · exact List.mem_cons.mpr (Or.inl hm)
    · exact List.mem_cons.mpr (Or.inr hm)

theorem distPushStep_cases (lm : Dict Cell (List Cell)) (t c : Cell) (d : Nat)
    (acc : List (Cell × Nat) × List Cell) (dir : Int × Int) :
    distPushStep lm t c d acc dir = acc ∨
    ∃ n : Cell, distPushStep lm t c d acc dir = (acc.1 ++ [(n, d + 1)], n :: acc.2) ∧
      n ∉ acc.2 ∧ (dictContains lm n = true ∨ n = t) := by
  unfold distPushStep
  dsimp only
  by_cases h1 : ((c.1 + dir.1, c.2 + dir.2) : Cell) ∈ acc.2
  · rw [if_pos h1]
    exact Or.inl rfl
  · rw [if_neg h1]
    by_cases h2 : dictContains lm ((c.1 + dir.1, c.2 + dir.2) : Cell) = true ∨
        ((c.1 + dir.1, c.2 + dir.2) : Cell) = t
    · rw [if_pos h2]
      exact Or.inr ⟨_, rfl, h1, h2⟩
    · rw [if_neg h2]
      exact Or.inl rfl

theorem pathPushStep_cases (lm : Dict Cell (List Cell)) (t c : Cell) (path : List Cell)
    (acc : List (Cell × List Cell) × List Cell) (dir : Int × Int) :
    pathPushStep lm t c path acc dir = acc ∨
    ∃ n : Cell,
      pathPushStep lm t c path acc dir = (acc.1 ++ [(n, path ++ [n])], n :: acc.2) ∧
      n ∉ acc.2 ∧ (dictContains lm n = true ∨ n = t) := by
  unfold pathPushStep
  dsimp only
  by_cases h1 : ((c.1 + dir.1, c.2 + dir.2) : Cell) ∈ acc.2
  · rw [if_pos h1]
    exact Or.inl rfl
  · rw [if_neg h1]
    by_cases h2 : dictContains lm ((c.1 + dir.1, c.2 + dir.2) : Cell) = true ∨
        ((c.1 + dir.1, c.2 + dir.2) : Cell) = t
    · rw [if_pos h2]
      exact Or.inr ⟨_, rfl, h1, h2⟩
    · rw [if_neg h2]
      exact Or.inl rfl

theorem distPush_fold_pot (lm : Dict Cell (List Cell)) (t c : Cell) (d : Nat)
    (dirs : List (Int × Int)) :
    ∀ (q : List (Cell × Nat)) (v : List Cell),
      (dirs.foldl (distPushStep lm t c d) (q, v)).1.length +
        bfsPotential lm t (dirs.foldl (distPushStep lm t c d) (q, v)).2 ≤
      q.length + bfsPotential lm t v := by
  induction dirs with
  | nil =>
    intro q v
    exact le_refl _
  | cons dir rest ih =>
    intro q v
    simp only [List.foldl_cons]
    rcases distPushStep_cases lm t c d (q, v) dir with h | ⟨n, h, hnv, hmem⟩
    · rw [h]
      exact ih q v
    · rw [h]
      dsimp only
      have hpot : bfsPotential lm t (n :: v) + 1 = bfsPotential lm t v := by
        apply bfsPotential_cons lm t v n ?_ hnv
        rcases hmem with hm | hm
        · exact Or.inr ((dictContains_iff_mem_keys _ _).mp hm)
        · exact Or.inl hm
      have := ih (q ++ [(n, d + 1)]) (n :: v)
      simp only [List.length_append, List.length_singleton] at this
      omega

theorem pathPush_fold_pot (lm : Dict Cell (List Cell)) (t c : Cell) (path : List Cell)
    (dirs : List (Int × Int)) :
    ∀ (q : List (Cell × List Cell)) (v : List Cell),
      (dirs.foldl (pathPushStep lm t c path) (q, v)).1.length +
        bfsPotential lm t (dirs.foldl (pathPushStep lm t c path) (q, v)).2 ≤
      q.length + bfsPotential lm t v := by
  induction dirs with
  | nil =>
    intro q v
    exact le_refl _
  | cons dir rest ih =>
    intro q v
    simp only [List.foldl_cons]
    rcases pathPushStep_cases lm t c path (q, v) dir with h | ⟨n, h, hnv, hmem⟩
    · rw [h]
      exact ih q v
    · rw [h]
      dsimp only
      have hpot : bfsPotential lm t (n :: v) + 1 = bfsPotential lm t v := by
        apply bfsPotential_cons lm t v n ?_ hnv
        rcases hmem with hm | hm
        · exact Or.inr ((dictContains_iff_mem_keys _ _).mp hm)
        · exact Or.inl hm
      have := ih (q ++ [(n, path ++ [n])]) (n :: v)
      simp only [List.length_append, List.length_singleton] at this
      omega

theorem bfsDistLoop_nil (lm : Dict Cell (List Cell)) (t : Cell) (v : List Cell) :
    ∀ fuel, bfsDistLoop lm t fuel [] v = none := by
  intro fuel
  cases fuel <;> rfl

theorem bfsPathLoop_nil (lm : Dict Cell (List Cell)) (t : Cell) (v : List Cell) :
    ∀ fuel, bfsPathLoop lm t fuel [] v = none := by
  intro fuel
  cases fuel <;> rfl

/-- The distance BFS is fuel-insensitive above its intrinsic iteration
bound `queue.length + bfsPotential`: any two sufficient fuels compute the
same answer, so the wrapper's fuel `local_map.length + 4` yields exactly
the value of the unbounded Python loop. -/
theorem bfsDistLoop_fuel_stable (lm : Dict Cell (List Cell)) (t : Cell) :
    ∀ (n : Nat) (q : List (Cell × Nat)) (v : List Cell) (f1 f2 : Nat),
      q.length + bfsPotential lm t v ≤ n → n ≤ f1 → n ≤ f2 →
      bfsDistLoop lm t f1 q v = bfsDistLoop lm t f2 q v := by
  intro n
  induction n with
  | zero =>
    intro q v f1 f2 hpot h1 h2
    have hq : q = [] := by
      cases q with
      | nil => rfl
      | cons a as => simp at hpot
    subst hq
    rw [bfsDistLoop_nil, bfsDistLoop_nil]
  | succ m ih =>
    intro q v f1 f2 hpot h1 h2
    cases q with
    | nil => rw [bfsDistLoop_nil, bfsDistLoop_nil]
    | cons hd rest =>
      obtain ⟨c, d⟩ := hd
      obtain ⟨a, rfl⟩ : ∃ a, f1 = a + 1 := ⟨f1 - 1, by omega⟩
      obtain ⟨b, rfl⟩ : ∃ b, f2 = b + 1 := ⟨f2 - 1, by omega⟩
      simp only [bfsDistLoop]
      by_cases hct : c = t
      · rw [if_pos hct, if_pos hct]
      · rw [if_neg hct, if_neg hct]
        have hfold := distPush_fold_pot lm t c d directions rest v
        simp only [List.length_cons] at hpot
        exact ih _ _ a b (by omega) (by omega) (by omega)

/-- The path BFS is fuel-insensitive above the same bound. -/
theorem bfsPathLoop_fuel_stable (lm : Dict Cell (List Cell)) (t : Cell) :
    ∀ (n : Nat) (q : List (Cell × List Cell)) (v : List Cell) (f1 f2 : Nat),
      q.length + bfsPotential lm t v ≤ n → n ≤ f1 → n ≤ f2 →
      bfsPathLoop lm t f1 q v = bfsPathLoop lm t f2 q v := by
  intro n
  induction n with
  | zero =>
    intro q v f1 f2 hpot h1 h2
    have hq : q = [] := by
      cases q with
      | nil => rfl
      | cons a as => simp at hpot
    subst hq
    rw [bfsPathLoop_nil, bfsPathLoop_nil]
  | succ m ih =>
    intro q v f1 f2 hpot h1 h2
    cases q with
    | nil => rw [bfsPathLoop_nil, bfsPathLoop_nil]
    | cons hd rest =>
      obtain ⟨c, path⟩ := hd
      obtain ⟨a, rfl⟩ : ∃ a, f1 = a + 1 := ⟨f1 - 1, by omega⟩
      obtain ⟨b, rfl⟩ : ∃ b, f2 = b + 1 := ⟨f2 - 1, by omega⟩
      simp only [bfsPathLoop]
      by_cases hct : c = t
      · rw [if_pos hct, if_pos hct]
      · rw [if_neg hct, if_neg hct]
        have hfold := pathPush_fold_pot lm t c path directions rest v
        simp only [List.length_cons] at hpot
        exact ih _ _ a b (by omega) (by omega) (by omega)

/-- The fuel `local_map.length + 4` used by `get_bfs_distance` and
`find_next_step_bfs` exceeds the intrinsic bound of their initial states, so
both wrappers compute the fixed point of their loops: enlarging the fuel
never changes either answer. -/
theorem bfs_fuel_adequate (s : AgentState) (p t : Cell) (f : Nat)
    (hf : s.local_map.length + 4 ≤ f) :
    bfsDistLoop s.local_map t f [(p, 0)] [p] =
      bfsDistLoop s.local_map t (s.local_map.length + 4) [(p, 0)] [p] ∧
    bfsPathLoop s.local_map t f [(p, [p])] [p] =
      bfsPathLoop s.local_map t (s.local_map.length + 4) [(p, [p])] [p] := by
  have hpot : bfsPotential s.local_map t [p] ≤ s.local_map.length + 1 := by
    unfold bfsPotential
    calc ((t :: dictKeys s.local_map).dedup.filter (fun x => ¬ x ∈ [p])).length
        ≤ (t :: dictKeys s.local_map).dedup.length := List.length_filter_le _ _
      _ ≤ (t :: dictKeys s.local_map).length := (List.dedup_sublist _).length_le
      _ = s.local_map.length + 1 := by
          simp [dictKeys]
  constructor
  · exact bfsDistLoop_fuel_stable s.local_map t (s.local_map.length + 4) _ _ f
      (s.local_map.length + 4) (by simp; omega) hf (le_refl _)
  · exact bfsPathLoop_fuel_stable s.local_map t (s.local_map.length + 4) _ _ f
      (s.local_map.length + 4) (by simp; omega) hf (le_refl _)

end NodeClass
